import Mathlib

/-!
Verification of the `RedisCacheManager` component
(`src/scripts/server-setup-deploy.sh`, embedded TypeScript, and its copies).

The development shallowly embeds:
* the JSON values the manager serializes (`JSON.stringify` / `JSON.parse`),
* the backing Redis store as an association list of entries (string values
  and bloom filters, each with an optional TTL),
* the store commands the manager issues (`GET`, `SETEX`, `EXPIRE`, `DEL`,
  `KEYS`, `TTL`, `BF.RESERVE`, `BF.ADD`, `INFO`, `MULTI`/`EXEC`),
* the manager methods `setWithTTL`, `getWithRefresh`, `createBloomCache`,
  `addToBloomCache`, `setBatch`, `cleanup`, `getCacheStats`, and the body of
  one `startAutoCleanup` scheduler tick.

Numbers are modelled as integers (the repository only stores integer
numbers); the bloom filter is modelled by its idealized set semantics, which
suffices for the pass-through properties proved here.  Character classes of
the Redis glob syntax are not modelled (no pattern in the repository uses
them); `*`, `?`, backslash escapes and literals are.
-/

/-! ## JSON values

JavaScript `JSON.stringify` / `JSON.parse` as used by the manager.  Arrays
and objects are separate inductives (isomorphic to nested lists) so that all
recursions below are plain mutual structural recursions. -/

mutual
inductive JValue where
  | jnull
  | jbool (b : Bool)
  | jnum (n : Int)
  | jstr (s : String)
  | jarr (xs : JArr)
  | jobj (fs : JObj)
  deriving DecidableEq
inductive JArr where
  | anil
  | acons (v : JValue) (rest : JArr)
  deriving DecidableEq
inductive JObj where
  | onil
  | ocons (k : String) (v : JValue) (rest : JObj)
  deriving DecidableEq
end

/-- Decimal digits of a natural number, most significant first. -/
def natDigits (n : Nat) : List Char :=
  if h : n < 10 then [Char.ofNat (48 + n)]
  else natDigits (n / 10) ++ [Char.ofNat (48 + n % 10)]
  decreasing_by exact Nat.div_lt_self (by omega) (by omega)

/-- Decimal representation of an integer, as printed by `JSON.stringify`. -/
def intChars (n : Int) : List Char :=
  if n < 0 then '-' :: natDigits n.natAbs else natDigits n.toNat

/-- Lower-case hexadecimal digit, as in the `\u00XX` escapes `JSON.stringify`
emits for control characters. -/
def hexDigit (n : Nat) : Char :=
  if n < 10 then Char.ofNat (48 + n) else Char.ofNat (87 + n)

/-- How `JSON.stringify` quotes one character of a string: `"` and `\` are
escaped, the control characters with short escapes use them, the remaining
control characters become `\u00XX`. -/
def escapeChar (c : Char) : List Char :=
  if c = '"' then ['\\', '"']
  else if c = '\\' then ['\\', '\\']
  else if c = '\x08' then ['\\', 'b']
  else if c = '\x09' then ['\\', 't']
  else if c = '\x0a' then ['\\', 'n']
  else if c = '\x0c' then ['\\', 'f']
  else if c = '\x0d' then ['\\', 'r']
  else if c.toNat < 32 then
    ['\\', 'u', '0', '0', hexDigit (c.toNat / 16), hexDigit (c.toNat % 16)]
  else [c]

/-- The quoted body of a JSON string literal. -/
def escChars (l : List Char) : List Char := l.flatMap escapeChar

mutual
/-- Characters of `JSON.stringify v` (no whitespace, as JavaScript emits). -/
def stringifyChars : JValue → List Char
  | .jnull => ['n', 'u', 'l', 'l']
  | .jbool true => ['t', 'r', 'u', 'e']
  | .jbool false => ['f', 'a', 'l', 's', 'e']
  | .jnum n => intChars n
  | .jstr s => '"' :: (escChars s.data ++ ['"'])
  | .jarr .anil => ['[', ']']
  | .jarr (.acons v rest) =>
      '[' :: (stringifyChars v ++ stringifyArrTail rest ++ [']'])
  | .jobj .onil => ['\x7b', '\x7d']
  | .jobj (.ocons k v rest) =>
      '\x7b' :: ('"' :: (escChars k.data ++ ['"', ':'] ++ stringifyChars v
        ++ stringifyObjTail rest ++ ['\x7d']))
def stringifyArrTail : JArr → List Char
  | .anil => []
  | .acons v rest => ',' :: (stringifyChars v ++ stringifyArrTail rest)
def stringifyObjTail : JObj → List Char
  | .onil => []
  | .ocons k v rest =>
      ',' :: ('"' :: (escChars k.data ++ ['"', ':'] ++ stringifyChars v
        ++ stringifyObjTail rest))
end

/-- `JSON.stringify`. -/
def stringify (v : JValue) : String := ⟨stringifyChars v⟩

/-! ## JSON parsing (`JSON.parse`)

A standard recursive-descent JSON reader; the fuel argument only bounds the
recursion depth and is instantiated generously by `parse`. -/

/-- Value of one hexadecimal digit character. -/
def parseHexDigit (c : Char) : Option Nat :=
  if c.isDigit then some (c.toNat - 48)
  else if 'a' ≤ c ∧ c ≤ 'f' then some (c.toNat - 87)
  else if 'A' ≤ c ∧ c ≤ 'F' then some (c.toNat - 55)
  else none

/-- Consume leading decimal digits, accumulating their value. -/
def parseNatAux (acc : Nat) : List Char → Nat × List Char
  | [] => (acc, [])
  | c :: cs =>
      if c.isDigit then parseNatAux (acc * 10 + (c.toNat - 48)) cs
      else (acc, c :: cs)

/-- Parse a JSON number (integer form). -/
def parseNum : List Char → Option (Int × List Char)
  | [] => none
  | c :: cs =>
      if c = '-' then
        match cs with
        | [] => none
        | c2 :: cs2 =>
            if c2.isDigit then
              let p := parseNatAux 0 (c2 :: cs2)
              some (-(p.1 : Int), p.2)
            else none
      else if c.isDigit then
        let p := parseNatAux 0 (c :: cs)
        some ((p.1 : Int), p.2)
      else none

/-- Parse the body of a JSON string literal after the opening quote; returns
the decoded characters and the input following the closing quote. -/
def parseStringBody : List Char → Option (List Char × List Char)
  | [] => none
  | c :: cs =>
    if c = '"' then some ([], cs)
    else if c = '\\' then
      match cs with
      | [] => none
      | e :: cs2 =>
        if e = '"' then (parseStringBody cs2).map (fun p => ('"' :: p.1, p.2))
        else if e = '\\' then (parseStringBody cs2).map (fun p => ('\\' :: p.1, p.2))
        else if e = '/' then (parseStringBody cs2).map (fun p => ('/' :: p.1, p.2))
        else if e = 'b' then (parseStringBody cs2).map (fun p => ('\x08' :: p.1, p.2))
        else if e = 'f' then (parseStringBody cs2).map (fun p => ('\x0c' :: p.1, p.2))
        else if e = 'n' then (parseStringBody cs2).map (fun p => ('\x0a' :: p.1, p.2))
        else if e = 'r' then (parseStringBody cs2).map (fun p => ('\x0d' :: p.1, p.2))
        else if e = 't' then (parseStringBody cs2).map (fun p => ('\x09' :: p.1, p.2))
        else if e = 'u' then
          match cs2 with
          | h1 :: h2 :: h3 :: h4 :: cs3 =>
            match parseHexDigit h1, parseHexDigit h2, parseHexDigit h3, parseHexDigit h4 with
            | some a, some b, some c2, some d =>
                (parseStringBody cs3).map
                  (fun p => (Char.ofNat (a * 4096 + b * 256 + c2 * 16 + d) :: p.1, p.2))
            | _, _, _, _ => none
          | _ => none
        else none
    else (parseStringBody cs).map (fun p => (c :: p.1, p.2))

mutual
/-- Parse one JSON value. -/
def parseVal : Nat → List Char → Option (JValue × List Char)
  | 0, _ => none
  | _ + 1, [] => none
  | fuel + 1, c :: cs =>
    if c = 'n' then
      match cs with
      | 'u' :: 'l' :: 'l' :: rest => some (.jnull, rest)
      | _ => none
    else if c = 't' then
      match cs with
      | 'r' :: 'u' :: 'e' :: rest => some (.jbool true, rest)
      | _ => none
    else if c = 'f' then
      match cs with
      | 'a' :: 'l' :: 's' :: 'e' :: rest => some (.jbool false, rest)
      | _ => none
    else if c = '"' then
      (parseStringBody cs).map (fun p => (.jstr ⟨p.1⟩, p.2))
    else if c = '[' then
      if cs.head? = some ']' then some (.jarr .anil, cs.tail)
      else
        match parseVal fuel cs with
        | some (v, rest) =>
          match parseArrTail fuel rest with
          | some (xs, rest2) => some (.jarr (.acons v xs), rest2)
          | none => none
        | none => none
    else if c = '\x7b' then
      if cs.head? = some '\x7d' then some (.jobj .onil, cs.tail)
      else
        match parseMember fuel cs with
        | some (k, v, rest) =>
          match parseObjTail fuel rest with
          | some (fs, rest2) => some (.jobj (.ocons k v fs), rest2)
          | none => none
        | none => none
    else if c = '-' ∨ c.isDigit then
      (parseNum (c :: cs)).map (fun p => (.jnum p.1, p.2))
    else none
/-- Parse the rest of a JSON array after one element: either `]` or `,` and
another element. -/
def parseArrTail : Nat → List Char → Option (JArr × List Char)
  | 0, _ => none
  | _ + 1, [] => none
  | fuel + 1, c :: cs =>
    if c = ']' then some (.anil, cs)
    else if c = ',' then
      match parseVal fuel cs with
      | some (v, rest) =>
        match parseArrTail fuel rest with
        | some (xs, rest2) => some (.acons v xs, rest2)
        | none => none
      | none => none
    else none
/-- Parse one `"key":value` object member. -/
def parseMember : Nat → List Char → Option (String × JValue × List Char)
  | 0, _ => none
  | _ + 1, [] => none
  | fuel + 1, c :: cs =>
    if c = '"' then
      match parseStringBody cs with
      | some (k, rest) =>
        match rest with
        | [] => none
        | c2 :: rest2 =>
          if c2 = ':' then
            match parseVal fuel rest2 with
            | some (v, rest3) => some (⟨k⟩, v, rest3)
            | none => none
          else none
      | none => none
    else none
/-- Parse the rest of a JSON object after one member. -/
def parseObjTail : Nat → List Char → Option (JObj × List Char)
  | 0, _ => none
  | _ + 1, [] => none
  | fuel + 1, c :: cs =>
    if c = '\x7d' then some (.onil, cs)
    else if c = ',' then
      match parseMember fuel cs with
      | some (k, v, rest) =>
        match parseObjTail fuel rest with
        | some (fs, rest2) => some (.ocons k v fs, rest2)
        | none => none
      | none => none
    else none
end

/-- `JSON.parse`: succeeds when the whole input is one JSON value. -/
def parse (s : String) : Option JValue :=
  match parseVal (s.length + 1) s.data with
  | some (v, []) => some v
  | _ => none

/-! ## The backing store

An association list of entries.  A well-formed store has pairwise distinct
keys; the store primitives preserve this.  `ttl = none` is a key with no
expiry (`TTL` replies `-1`), `ttl = some n` a scheduled expiry in `n`
seconds (`TTL` replies `n`); an absent key makes `TTL` reply `-2`. -/

/-- A stored value: a plain string, or a RedisBloom filter (idealized to its
set of inserted items, keeping its configured error rate and capacity). -/
inductive RVal where
  | str (s : String)
  | bloom (errorRate : Rat) (capacity : Int) (items : List String)
  deriving DecidableEq

/-- One key of the store. -/
structure Entry where
  key : String
  val : RVal
  ttl : Option Nat
  deriving DecidableEq

/-- The store state. -/
abbrev Store := List Entry

/-- Distinct keys. -/
def WF (st : Store) : Prop := (st.map Entry.key).Nodup

instance : DecidablePred WF := fun st => by unfold WF; infer_instance

/-- Errors a store command (or `JSON.parse`) can signal. -/
inductive Err where
  | wrongType
  | invalidExpire
  | filterExists
  | badFilterParams
  | sectionUnavailable (sect : String)
  | parseError
  deriving DecidableEq

/-- Look a key up. -/
def storeFind (st : Store) (k : String) : Option Entry :=
  st.find? (fun e => e.key = k)

/-- `GET`: `nil` for an absent key, the string for a string key, a wrong-type
error for a bloom filter key. -/
def storeGet (st : Store) (k : String) : Except Err (Option String) :=
  match storeFind st k with
  | none => .ok none
  | some e =>
    match e.val with
    | .str s => .ok (some s)
    | .bloom _ _ _ => .error .wrongType

/-- `DEL`: remove a key. -/
def storeDel (st : Store) (k : String) : Store :=
  st.filter (fun e => e.key ≠ k)

/-- `SETEX`: rejected by the store for a non-positive expiry, otherwise
writes the string with that TTL (replacing any previous value). -/
def storeSetEx (st : Store) (k : String) (ttl : Int) (s : String) : Except Err Store :=
  if ttl ≤ 0 then .error .invalidExpire
  else .ok (⟨k, .str s, some ttl.toNat⟩ :: storeDel st k)

/-- `EXPIRE`: on an absent key, no effect; a non-positive time deletes the
key (Redis semantics); a positive time replaces the key's TTL. -/
def storeExpire (st : Store) (k : String) (t : Int) : Store :=
  match storeFind st k with
  | none => st
  | some _ =>
    if t ≤ 0 then storeDel st k
    else st.map (fun e => if e.key = k then { e with ttl := some t.toNat } else e)

/-- `TTL`. -/
def storeTtl (st : Store) (k : String) : Int :=
  match storeFind st k with
  | none => -2
  | some e =>
    match e.ttl with
    | none => -1
    | some n => (n : Int)

/-- Redis glob matching as used by `KEYS`: `*`, `?`, backslash escape and
literal characters (the character classes no pattern of this repository uses
are not modelled).  The fuel argument only bounds the recursion depth and is
instantiated generously by `globMatch`: every recursive call drops the fuel
by one and the combined pattern-plus-string length by at least one. -/
def globMatchAux : Nat → List Char → List Char → Bool
  | 0, _, _ => false
  | _ + 1, [], s => s.isEmpty
  | fuel + 1, c :: p, [] => c = '*' && globMatchAux fuel p []
  | fuel + 1, c :: p, c2 :: s =>
      if c = '*' then globMatchAux fuel p (c2 :: s) || globMatchAux fuel (c :: p) s
      else if c = '?' then globMatchAux fuel p s
      else if c = '\\' then
        match p with
        | c3 :: p2 => c3 = c2 && globMatchAux fuel p2 s
        | [] => c = c2 && globMatchAux fuel [] s
      else c = c2 && globMatchAux fuel p s

/-- Redis glob matching with adequate fuel. -/
def globMatch (p s : List Char) : Bool := globMatchAux (p.length + s.length + 1) p s

/-- Glob matching on strings. -/
def globMatchS (pattern s : String) : Bool := globMatch pattern.data s.data

/-- `KEYS pattern`. -/
def storeKeys (st : Store) (pattern : String) : List String :=
  (st.filter (fun e => globMatchS pattern e.key)).map Entry.key

/-- `BF.RESERVE`: rejects an error rate outside `(0, 1)` or a non-positive
capacity, errors on an existing key, otherwise creates an empty filter with
no expiry. -/
def storeBfReserve (st : Store) (name : String) (er : Rat) (cap : Int) : Except Err Store :=
  if ¬(0 < er ∧ er < 1) ∨ cap ≤ 0 then .error .badFilterParams
  else
    match storeFind st name with
    | some _ => .error .filterExists
    | none => .ok (⟨name, .bloom er cap [], none⟩ :: st)

/-- `BF.ADD`: errors on a non-filter key; on an absent key auto-creates a
filter with the module defaults; replies whether the item was newly added
(idealized set semantics). -/
def storeBfAdd (st : Store) (name item : String) : Except Err (Bool × Store) :=
  match storeFind st name with
  | none => .ok (true, ⟨name, .bloom (1 / 100) 100 [item], none⟩ :: st)
  | some e =>
    match e.val with
    | .str _ => .error .wrongType
    | .bloom er cap items =>
      if item ∈ items then .ok (false, st)
      else
        .ok (true, st.map (fun e2 =>
          if e2.key = name then { e2 with val := .bloom er cap (item :: items) } else e2))

/-- The store commands the manager issues (for round-trip accounting). -/
inductive Cmd where
  | getC (k : String)
  | setExC (k : String) (ttl : Int) (v : String)
  | expireC (k : String) (t : Int)
  | delC (k : String)
  | keysC (pattern : String)
  | ttlC (k : String)
  | bfReserveC (name : String) (er : Rat) (cap : Int)
  | bfAddC (name : String) (item : String)
  | infoC (sect : String)
  deriving DecidableEq

/-- One network round trip: a single command, or one `MULTI`/`EXEC` batch. -/
inductive RoundTrip where
  | single (c : Cmd)
  | multiExec (cs : List Cmd)
  deriving DecidableEq

/-- The store-side effect of one command inside a transaction (the
read-only commands leave the store unchanged). -/
def applyCmd (st : Store) : Cmd → Except Err Store
  | .setExC k t v => storeSetEx st k t v
  | .expireC k t => .ok (storeExpire st k t)
  | .delC k => .ok (storeDel st k)
  | _ => .ok st

/-- `MULTI`/`EXEC`: the queued commands run back to back with nothing
interleaved, but Redis transactions do not roll back — a command that fails
at execution time is skipped while the rest still run. -/
def execMulti (st : Store) : List Cmd → Store
  | [] => st
  | c :: cs =>
    match applyCmd st c with
    | .ok st1 => execMulti st1 cs
    | .error _ => execMulti st cs

/-- The store's `INFO` endpoint: the text block per section, or a failure
for a section that is unavailable. -/
abbrev InfoSvc := String → Except Err String

/-! ## The `RedisCacheManager` methods -/

/-- `setWithTTL(key, value, ttlSeconds)`: one unconditional
`SETEX key ttlSeconds JSON.stringify(value)`. -/
def setWithTTL (st : Store) (k : String) (v : JValue) (ttlSeconds : Int) :
    Except Err Store × List RoundTrip :=
  (storeSetEx st k ttlSeconds (stringify v),
   [.single (.setExC k ttlSeconds (stringify v))])

/-- `getWithRefresh(key, refreshTTL?)`: `GET`; when the reply and the
`refreshTTL` argument are both truthy (JavaScript truthiness: a non-empty
string, a non-zero number), `EXPIRE key refreshTTL`; returns
`JSON.parse(value)` for a truthy reply and `null` otherwise. -/
def getWithRefresh (st : Store) (k : String) (refreshTTL : Option Int) :
    Except Err (Option JValue × Store) :=
  match storeGet st k with
  | .error e => .error e
  | .ok none => .ok (none, st)
  | .ok (some s) =>
    if s = "" then .ok (none, st)
    else
      let st1 :=
        match refreshTTL with
        | some t => if t = 0 then st else storeExpire st k t
        | none => st
      match parse s with
      | some j => .ok (some j, st1)
      | none => .error .parseError

/-- `createBloomCache(name, errorRate, capacity, ttlSeconds)`:
`BF.RESERVE` followed by `EXPIRE` — two separate commands, issued without
any local validation of the arguments. -/
def createBloomCache (st : Store) (name : String) (er : Rat) (cap : Int)
    (ttlSeconds : Int) : Except Err Store × List RoundTrip :=
  match storeBfReserve st name er cap with
  | .error e => (.error e, [.single (.bfReserveC name er cap)])
  | .ok st1 =>
      (.ok (storeExpire st1 name ttlSeconds),
       [.single (.bfReserveC name er cap), .single (.expireC name ttlSeconds)])

/-- `addToBloomCache(name, item, ttlSeconds?)`: `BF.ADD`, then — only when
`ttlSeconds` is truthy (given and non-zero) — `EXPIRE name ttlSeconds`;
returns the `BF.ADD` reply unmodified. -/
def addToBloomCache (st : Store) (name item : String) (ttlSeconds : Option Int) :
    Except Err (Bool × Store) :=
  match storeBfAdd st name item with
  | .error e => .error e
  | .ok (res, st1) =>
    match ttlSeconds with
    | some t => if t = 0 then .ok (res, st1) else .ok (res, storeExpire st1 name t)
    | none => .ok (res, st1)

/-- The commands `setBatch` queues: one `SETEX` per entry. -/
def setBatchCmds (entries : List (String × JValue × Int)) : List Cmd :=
  entries.map (fun e => .setExC e.1 e.2.2 (stringify e.2.1))

/-- `setBatch(entries)`: queues one `SETEX` per entry on a `MULTI` pipeline
and runs `EXEC` — a single round trip. -/
def setBatch (st : Store) (entries : List (String × JValue × Int)) :
    Store × List RoundTrip :=
  (execMulti st (setBatchCmds entries), [.multiExec (setBatchCmds entries)])

/-- Does `sub` occur as a prefix of some suffix of `l`? -/
def includesAux (sub : List Char) : List Char → Bool
  | [] => sub.isEmpty
  | c :: l => sub.isPrefixOf (c :: l) || includesAux sub l

/-- JavaScript `s.includes(sub)`: substring containment. -/
def strIncludes (s sub : String) : Bool := includesAux sub.data s.data

/-- The loop of `cleanup`: for each key listed by `KEYS`, read its `TTL`;
delete it and count it exactly when the TTL reports no expiry (`-1`) and the
cleanup pattern contains the substring `temp`. -/
def cleanupLoop (pattern : String) : List String → Store → Nat → Store × Nat
  | [], st, n => (st, n)
  | k :: ks, st, n =>
    if storeTtl st k = -1 ∧ strIncludes pattern "temp" then
      cleanupLoop pattern ks (storeDel st k) (n + 1)
    else cleanupLoop pattern ks st n

/-- `cleanup(pattern)`: `KEYS pattern`, then the per-key loop; returns the
final store and the count of deleted keys. -/
def cleanup (st : Store) (pattern : String) : Store × Nat :=
  cleanupLoop pattern (storeKeys st pattern) st 0

/-- One line of `parseInfo`: skipped when empty or a `#` comment; split on
`:`; kept when the first two fields are both non-empty. -/
def parseInfoLine (line : String) : Option (String × String) :=
  if line = "" ∨ line.startsWith "#" then none
  else
    match line.splitOn ":" with
    | k :: v :: _ => if k ≠ "" ∧ v ≠ "" then some (k, v) else none
    | _ => none

/-- `parseInfo(infoString)`: the key/value pairs of the non-comment lines. -/
def parseInfo (s : String) : List (String × String) :=
  (s.splitOn "\r\n").filterMap parseInfoLine

/-- The structured result of `getCacheStats`. -/
structure CacheStats where
  memory : List (String × String)
  keyspace : List (String × String)
  stats : List (String × String)
  deriving DecidableEq

/-- `getCacheStats()`: three sequential `INFO` queries; the first failure
fails the whole call; otherwise each section is parsed into key/value
pairs.  `INFO` does not modify the store, so the store passes through. -/
def getCacheStats (st : Store) (svc : InfoSvc) :
    Except Err CacheStats × Store × List RoundTrip :=
  match svc "memory" with
  | .error e => (.error e, st, [.single (.infoC "memory")])
  | .ok m =>
    match svc "keyspace" with
    | .error e => (.error e, st, [.single (.infoC "memory"), .single (.infoC "keyspace")])
    | .ok ks =>
      match svc "stats" with
      | .error e =>
          (.error e, st,
           [.single (.infoC "memory"), .single (.infoC "keyspace"),
            .single (.infoC "stats")])
      | .ok s =>
          (.ok ⟨parseInfo m, parseInfo ks, parseInfo s⟩, st,
           [.single (.infoC "memory"), .single (.infoC "keyspace"),
            .single (.infoC "stats")])

/-- The session-backfill loop of one `startAutoCleanup` tick: every listed
session key whose `TTL` reports no expiry gets `EXPIRE key 3600`. -/
def backfillLoop : List String → Store → Store
  | [], st => st
  | k :: ks, st =>
    if storeTtl st k = -1 then backfillLoop ks (storeExpire st k 3600)
    else backfillLoop ks st

/-- One tick of `startAutoCleanup`: `cleanup("cache:temp:*")`, then the
session backfill over `KEYS "cache:session:*"`, then a `getCacheStats` call
whose result is only logged (and whose failure the tick's `try`/`catch`
swallows), so the tick's store state is unaffected by it. -/
def autoCleanupTick (st : Store) : Store :=
  let st1 := (cleanup st "cache:temp:*").1
  backfillLoop (storeKeys st1 "cache:session:*") st1

/-! ## Store lemmas -/

theorem storeFind_cons (a : Entry) (l : Store) (k : String) :
    storeFind (a :: l) k = if a.key = k then some a else storeFind l k := by
  simp only [storeFind]
  by_cases h : a.key = k
  · rw [List.find?_cons_of_pos _ (by simpa using h), if_pos h]
  · rw [List.find?_cons_of_neg _ (by simpa using h), if_neg h]

theorem storeDel_cons (a : Entry) (l : Store) (k : String) :
    storeDel (a :: l) k = if a.key = k then storeDel l k else a :: storeDel l k := by
  simp only [storeDel, List.filter_cons]
  by_cases h : a.key = k <;> simp [h]

theorem storeDel_sublist (st : Store) (k : String) : (storeDel st k).Sublist st :=
  List.filter_sublist st

theorem WF_del {st : Store} (hwf : WF st) (k : String) : WF (storeDel st k) :=
  hwf.sublist ((storeDel_sublist st k).map Entry.key)

theorem mem_storeDel {st : Store} {k : String} {e : Entry} :
    e ∈ storeDel st k ↔ e ∈ st ∧ e.key ≠ k := by
  simp [storeDel, List.mem_filter]

theorem storeFind_of_mem {st : Store} {e : Entry} (hwf : WF st) (he : e ∈ st) :
    storeFind st e.key = some e := by
  induction st with
  | nil => cases he
  | cons a l ih =>
    have hwf2 : a.key ∉ l.map Entry.key ∧ (l.map Entry.key).Nodup := by
      simpa [WF] using hwf
    rcases List.mem_cons.mp he with rfl | hmem
    · rw [storeFind_cons, if_pos rfl]
    · have hka : ¬(a.key = e.key) := fun hcontra =>
        hwf2.1 (hcontra ▸ List.mem_map_of_mem Entry.key hmem)
      rw [storeFind_cons, if_neg hka]
      exact ih hwf2.2 hmem

theorem storeFind_del_other {st : Store} {k k2 : String} (hne : k2 ≠ k) :
    storeFind (storeDel st k) k2 = storeFind st k2 := by
  induction st with
  | nil => rfl
  | cons a l ih =>
    rw [storeDel_cons]
    by_cases ha : a.key = k
    · rw [if_pos ha, storeFind_cons, if_neg (by rw [ha]; exact fun h => hne h.symm)]
      exact ih
    · rw [if_neg ha, storeFind_cons, storeFind_cons]
      by_cases ha2 : a.key = k2
      · rw [if_pos ha2, if_pos ha2]
      · rw [if_neg ha2, if_neg ha2]
        exact ih

theorem storeFind_map_if (st : Store) (k : String) (g : Entry → Entry)
    (hg : ∀ e, (g e).key = e.key) :
    storeFind (st.map fun e => if e.key = k then g e else e) k =
      (storeFind st k).map g := by
  induction st with
  | nil => rfl
  | cons a l ih =>
    rw [List.map_cons, storeFind_cons, storeFind_cons]
    by_cases ha : a.key = k
    · rw [if_pos ha, if_pos ha, if_pos (by rw [hg a]; exact ha)]
      rfl
    · rw [if_neg ha, if_neg ha, if_neg ha]
      exact ih

theorem storeFind_map_if_other (st : Store) (k k2 : String) (g : Entry → Entry)
    (hg : ∀ e, (g e).key = e.key) (hne : k2 ≠ k) :
    storeFind (st.map fun e => if e.key = k then g e else e) k2 = storeFind st k2 := by
  induction st with
  | nil => rfl
  | cons a l ih =>
    rw [List.map_cons, storeFind_cons, storeFind_cons]
    by_cases ha : a.key = k
    · rw [if_pos ha, if_neg (by rw [hg a, ha]; exact fun h => hne h.symm),
        if_neg (by rw [ha]; exact fun h => hne h.symm)]
      exact ih
    · rw [if_neg ha]
      by_cases ha2 : a.key = k2
      · rw [if_pos ha2, if_pos ha2]
      · rw [if_neg ha2, if_neg ha2]
        exact ih

theorem storeFind_expire_pos {st : Store} {k : String} {t : Int} {e : Entry}
    (hf : storeFind st k = some e) (ht : 0 < t) :
    storeFind (storeExpire st k t) k = some { e with ttl := some t.toNat } := by
  unfold storeExpire
  rw [hf, if_neg (by omega)]
  rw [storeFind_map_if st k (fun e2 => { e2 with ttl := some t.toNat }) (fun _ => rfl), hf]
  rfl

theorem storeFind_expire_other {st : Store} {k k2 : String} {t : Int} (hne : k2 ≠ k) :
    storeFind (storeExpire st k t) k2 = storeFind st k2 := by
  unfold storeExpire
  cases hf : storeFind st k with
  | none => rfl
  | some e =>
    by_cases ht : t ≤ 0
    · rw [if_pos ht]
      exact storeFind_del_other hne
    · rw [if_neg ht]
      exact storeFind_map_if_other st k k2 _ (fun _ => rfl) hne

theorem storeTtl_expire_pos {st : Store} {k : String} {t : Int} {e : Entry}
    (hf : storeFind st k = some e) (ht : 0 < t) :
    storeTtl (storeExpire st k t) k = t := by
  unfold storeTtl
  rw [storeFind_expire_pos hf ht]
  simp
  omega

theorem WF_expire {st : Store} (hwf : WF st) (k : String) (t : Int) :
    WF (storeExpire st k t) := by
  unfold storeExpire
  cases hf : storeFind st k with
  | none => exact hwf
  | some e =>
    by_cases ht : t ≤ 0
    · rw [if_pos ht]; exact WF_del hwf k
    · rw [if_neg ht]
      unfold WF
      rw [List.map_map]
      have : (Entry.key ∘ fun e2 => if e2.key = k then { e2 with ttl := some t.toNat } else e2)
          = Entry.key := by
        funext e2
        by_cases h : e2.key = k <;> simp [h]
      rw [this]
      exact hwf

theorem mem_expire_other {st : Store} {k : String} {t : Int} {e : Entry}
    (ht : 0 < t) (he : e ∈ st) (hne : e.key ≠ k) : e ∈ storeExpire st k t := by
  unfold storeExpire
  cases hf : storeFind st k with
  | none => exact he
  | some e2 =>
    rw [if_neg (by omega)]
    refine List.mem_map.mpr ⟨e, he, ?_⟩
    rw [if_neg hne]

theorem storeTtl_of_mem {st : Store} {e : Entry} (hwf : WF st) (he : e ∈ st) :
    storeTtl st e.key = match e.ttl with | none => -1 | some n => (n : Int) := by
  unfold storeTtl
  rw [storeFind_of_mem hwf he]

theorem mem_storeKeys {st : Store} {pattern k : String} :
    k ∈ storeKeys st pattern ↔ ∃ e ∈ st, e.key = k ∧ globMatchS pattern e.key = true := by
  simp only [storeKeys, List.mem_map, List.mem_filter]
  constructor
  · rintro ⟨e, ⟨he, hm⟩, rfl⟩; exact ⟨e, he, rfl, hm⟩
  · rintro ⟨e, he, rfl, hm⟩; exact ⟨e, ⟨he, hm⟩, rfl⟩

/-! ## Glob lemmas -/

theorem globMatchAux_congr : ∀ (f1 f2 : Nat) (p s : List Char),
    p.length + s.length < f1 → p.length + s.length < f2 →
    globMatchAux f1 p s = globMatchAux f2 p s := by
  intro f1
  induction f1 with
  | zero => intro f2 p s h1 _; omega
  | succ f1 ih =>
    intro f2 p s h1 h2
    cases f2 with
    | zero => omega
    | succ f2 =>
      cases p with
      | nil => rfl
      | cons c p =>
        simp only [List.length_cons] at h1 h2
        cases s with
        | nil =>
          simp only [globMatchAux]
          rw [ih f2 p [] (by simp at h1 ⊢; omega) (by simp at h2 ⊢; omega)]
        | cons c2 s =>
          simp only [List.length_cons] at h1 h2
          by_cases hs : c = '*'
          · simp only [globMatchAux, if_pos hs]
            rw [ih f2 p (c2 :: s) (by simp; omega) (by simp; omega),
              ih f2 (c :: p) s (by simp; omega) (by simp; omega)]
          · by_cases hq : c = '?'
            · simp only [globMatchAux, if_neg hs, if_pos hq]
              exact ih f2 p s (by omega) (by omega)
            · by_cases hb : c = '\\'
              · cases p with
                | nil =>
                  simp only [globMatchAux, if_neg hs, if_neg hq, if_pos hb]
                  rw [ih f2 [] s (by simp; omega) (by simp; omega)]
                | cons c3 p2 =>
                  simp only [globMatchAux, if_neg hs, if_neg hq, if_pos hb]
                  rw [ih f2 p2 s (by simp at h1 ⊢; omega) (by simp at h2 ⊢; omega)]
              · simp only [globMatchAux, if_neg hs, if_neg hq, if_neg hb]
                rw [ih f2 p s (by omega) (by omega)]

theorem globMatchAux_eq_globMatch (f : Nat) (p s : List Char)
    (h : p.length + s.length < f) : globMatchAux f p s = globMatch p s :=
  globMatchAux_congr f (p.length + s.length + 1) p s h (by omega)

theorem globMatch_lit_nil {c : Char} (h1 : c ≠ '*') (p : List Char) :
    globMatch (c :: p) [] = false := by
  show globMatchAux _ _ _ = false
  simp only [List.length_cons, List.length_nil]
  rw [show p.length + 1 + 0 + 1 = (p.length + 1) + 1 from by omega]
  simp only [globMatchAux]
  simp [h1]

theorem globMatch_lit_cons {c : Char} (h1 : c ≠ '*') (h2 : c ≠ '?') (h3 : c ≠ '\\')
    (p : List Char) (c2 : Char) (s : List Char) :
    globMatch (c :: p) (c2 :: s) = (decide (c = c2) && globMatch p s) := by
  show globMatchAux _ _ _ = _
  simp only [List.length_cons]
  rw [show p.length + 1 + (s.length + 1) + 1 = (p.length + s.length + 2) + 1 from by omega]
  simp only [globMatchAux, if_neg h1, if_neg h2, if_neg h3]
  rw [globMatchAux_eq_globMatch _ p s (by omega)]

theorem globMatch_lit {c : Char} (h1 : c ≠ '*') (h2 : c ≠ '?') (h3 : c ≠ '\\')
    (p l : List Char) :
    globMatch (c :: p) l = true ↔ ∃ l2, l = c :: l2 ∧ globMatch p l2 = true := by
  cases l with
  | nil => simp [globMatch_lit_nil h1]
  | cons c2 l2 =>
    rw [globMatch_lit_cons h1 h2 h3]
    simp only [Bool.and_eq_true, decide_eq_true_eq]
    constructor
    · rintro ⟨rfl, hm⟩; exact ⟨l2, rfl, hm⟩
    · rintro ⟨l3, heq, hm⟩
      rw [List.cons.injEq] at heq
      obtain ⟨rfl, rfl⟩ := heq
      exact ⟨rfl, hm⟩

theorem globMatch_lit_prefix : ∀ (pre : List Char),
    (∀ c ∈ pre, c ≠ '*' ∧ c ≠ '?' ∧ c ≠ '\\') →
    ∀ p l, globMatch (pre ++ p) l = true → ∃ r, l = pre ++ r ∧ globMatch p r = true := by
  intro pre
  induction pre with
  | nil => exact fun _ p l h => ⟨l, rfl, h⟩
  | cons c pre ih =>
    intro hc p l h
    obtain ⟨h1, h2, h3⟩ := hc c (List.mem_cons_self c pre)
    rw [List.cons_append] at h
    obtain ⟨l2, rfl, hm⟩ := (globMatch_lit h1 h2 h3 _ _).mp h
    obtain ⟨r, rfl, hr⟩ := ih (fun c2 hm2 => hc c2 (List.mem_cons_of_mem c hm2)) p l2 hm
    exact ⟨r, rfl, hr⟩

theorem session_not_temp {k : String} (h : globMatchS "cache:session:*" k = true) :
    globMatchS "cache:temp:*" k = false := by
  by_contra hne
  have h2 : globMatchS "cache:temp:*" k = true := by
    cases hb : globMatchS "cache:temp:*" k
    · exact absurd hb hne
    · rfl
  have e1 : "cache:session:*".data =
      ['c', 'a', 'c', 'h', 'e', ':', 's'] ++ "ession:*".data := rfl
  have e2 : "cache:temp:*".data = ['c', 'a', 'c', 'h', 'e', ':', 't'] ++ "emp:*".data := rfl
  unfold globMatchS at h h2
  rw [e1] at h
  rw [e2] at h2
  obtain ⟨r1, hr1, _⟩ := globMatch_lit_prefix _ (by decide) _ _ h
  obtain ⟨r2, hr2, _⟩ := globMatch_lit_prefix _ (by decide) _ _ h2
  rw [hr1] at hr2
  simp at hr2

/-! ## Cleanup lemmas -/

theorem storeTtl_neg_one {st : Store} {k : String} (h : storeTtl st k = -1) :
    ∃ e, storeFind st k = some e ∧ e.ttl = none := by
  unfold storeTtl at h
  cases hf : storeFind st k with
  | none => simp only [hf] at h; exact absurd h (by decide)
  | some e =>
    simp only [hf] at h
    cases ht : e.ttl with
    | none => exact ⟨e, rfl, ht⟩
    | some m => simp only [ht] at h; omega

theorem storeDel_length {st : Store} {k : String} {e : Entry} (hwf : WF st)
    (hf : storeFind st k = some e) : (storeDel st k).length + 1 = st.length := by
  induction st with
  | nil => simp [storeFind] at hf
  | cons a l ih =>
    rw [storeFind_cons] at hf
    rw [storeDel_cons]
    have hwf2 : a.key ∉ l.map Entry.key ∧ WF l := by simpa [WF] using hwf
    by_cases ha : a.key = k
    · rw [if_pos ha]
      have hall : storeDel l k = l := by
        apply List.filter_eq_self.mpr
        intro e2 he2
        simp only [decide_eq_true_eq]
        intro hcontra
        exact hwf2.1 (ha ▸ hcontra ▸ List.mem_map_of_mem Entry.key he2)
      rw [hall]
      simp
    · rw [if_neg ha] at *
      simp only [List.length_cons]
      have := ih hwf2.2 hf
      omega

theorem cleanupLoop_keeps (pattern : String) :
    ∀ (ks : List String) (st : Store) (n : Nat) (e : Entry), WF st → e ∈ st →
      e.ttl ≠ none → e ∈ (cleanupLoop pattern ks st n).1 := by
  intro ks
  induction ks with
  | nil => intro st n e _ he _; simpa [cleanupLoop] using he
  | cons k ks ih =>
    intro st n e hwf he hm
    simp only [cleanupLoop]
    by_cases hcond : storeTtl st k = -1 ∧ strIncludes pattern "temp" = true
    · rw [if_pos hcond]
      have hke : e.key ≠ k := by
        intro hk
        obtain ⟨e0, hf0, ht0⟩ := storeTtl_neg_one hcond.1
        rw [← hk, storeFind_of_mem hwf he] at hf0
        obtain rfl : e0 = e := by injection hf0.symm
        exact hm ht0
      exact ih (storeDel st k) (n + 1) e (WF_del hwf k) (mem_storeDel.mpr ⟨he, hke⟩) hm
    · rw [if_neg hcond]
      exact ih st n e hwf he hm

theorem cleanupLoop_count (pattern : String) :
    ∀ (ks : List String) (st : Store) (n : Nat), WF st →
      (cleanupLoop pattern ks st n).1.Sublist st ∧ WF (cleanupLoop pattern ks st n).1 ∧
      (cleanupLoop pattern ks st n).2 + (cleanupLoop pattern ks st n).1.length =
        n + st.length := by
  intro ks
  induction ks with
  | nil => intro st n hwf; exact ⟨List.Sublist.refl st, hwf, rfl⟩
  | cons k ks ih =>
    intro st n hwf
    simp only [cleanupLoop]
    by_cases hcond : storeTtl st k = -1 ∧ strIncludes pattern "temp" = true
    · rw [if_pos hcond]
      obtain ⟨e0, hf0, _⟩ := storeTtl_neg_one hcond.1
      obtain ⟨hsub, hwf2, hcount⟩ := ih (storeDel st k) (n + 1) (WF_del hwf k)
      have hlen := storeDel_length hwf hf0
      exact ⟨hsub.trans (storeDel_sublist st k), hwf2, by omega⟩
    · rw [if_neg hcond]
      exact ih st n hwf

theorem cleanupLoop_keeps_unlisted (pattern : String) :
    ∀ (ks : List String) (st : Store) (n : Nat) (e : Entry), e ∈ st →
      (∀ k ∈ ks, k ≠ e.key) → e ∈ (cleanupLoop pattern ks st n).1 := by
  intro ks
  induction ks with
  | nil => intro st n e he _; simpa [cleanupLoop] using he
  | cons k ks ih =>
    intro st n e he hk
    simp only [cleanupLoop]
    by_cases hcond : storeTtl st k = -1 ∧ strIncludes pattern "temp" = true
    · rw [if_pos hcond]
      refine ih (storeDel st k) (n + 1) e ?_ (fun k2 hk2 => hk k2 (List.mem_cons_of_mem k hk2))
      exact mem_storeDel.mpr ⟨he, fun h => hk k (List.mem_cons_self k ks) h.symm⟩
    · rw [if_neg hcond]
      exact ih st n e he (fun k2 hk2 => hk k2 (List.mem_cons_of_mem k hk2))

theorem cleanup_keeps_unmatched {st : Store} {pattern : String} {e : Entry}
    (he : e ∈ st) (hm : globMatchS pattern e.key = false) : e ∈ (cleanup st pattern).1 := by
  refine cleanupLoop_keeps_unlisted pattern _ st 0 e he ?_
  intro k hk hcontra
  obtain ⟨e2, _, heq, hm2⟩ := mem_storeKeys.mp hk
  rw [heq, hcontra, hm] at hm2
  exact Bool.noConfusion hm2

/-- Five keys matching `cache:temp:*`, none with a TTL. -/
def tempStore5 : Store :=
  [⟨"cache:temp:a", .str "1", none⟩, ⟨"cache:temp:b", .str "2", none⟩,
   ⟨"cache:temp:c", .str "3", none⟩, ⟨"cache:temp:d", .str "4", none⟩,
   ⟨"cache:temp:e", .str "5", none⟩]

/-- A store holding the five no-TTL temp keys plus one temp key with a
scheduled expiry. -/
def tempStoreMixed : Store := tempStore5 ++ [⟨"cache:temp:keep", .str "7", some 30⟩]

/-- C1: `cleanup` returns exactly the number of keys it deleted: the final
store is a sub-collection of the initial one and count plus remaining size
equals the initial size; a pattern matching zero keys yields `(st, 0)` with
no error; on five no-TTL keys matching `cache:temp:*` it deletes exactly
those five and returns 5, and re-running immediately returns 0. -/
theorem cleanup_returns_deleted_count (st : Store) (pattern : String) (hwf : WF st) :
    ((cleanup st pattern).1.Sublist st ∧
      (cleanup st pattern).2 + (cleanup st pattern).1.length = st.length) ∧
    (storeKeys st pattern = [] → cleanup st pattern = (st, 0)) ∧
    cleanup tempStore5 "cache:temp:*" = ([], 5) ∧
    cleanup ([] : Store) "cache:temp:*" = ([], 0) := by
  refine ⟨?_, ?_, ?_, ?_⟩
  · obtain ⟨hs, _, hc⟩ := cleanupLoop_count pattern (storeKeys st pattern) st 0 hwf
    exact ⟨hs, by simpa using hc⟩
  · intro h
    unfold cleanup
    rw [h]
    rfl
  · decide
  · rfl

theorem cleanup_returns_deleted_count_witness :
    WF tempStore5 ∧
    (((cleanup tempStore5 "cache:temp:*").1.Sublist tempStore5 ∧
        (cleanup tempStore5 "cache:temp:*").2 +
          (cleanup tempStore5 "cache:temp:*").1.length = tempStore5.length) ∧
      (storeKeys tempStore5 "cache:temp:*" = [] → cleanup tempStore5 "cache:temp:*" =
        (tempStore5, 0)) ∧
      cleanup tempStore5 "cache:temp:*" = ([], 5) ∧
      cleanup ([] : Store) "cache:temp:*" = ([], 0)) :=
  ⟨by decide, cleanup_returns_deleted_count tempStore5 "cache:temp:*" (by decide)⟩

/-- C2: `cleanup` never deletes a key with a scheduled expiry — every entry
whose TTL is a countdown survives, and an entry that was deleted had no
expiry. -/
theorem cleanup_never_deletes_scheduled (st : Store) (pattern : String) (hwf : WF st) :
    (∀ e ∈ st, ∀ m : Nat, e.ttl = some m → e ∈ (cleanup st pattern).1) ∧
    (∀ e ∈ st, e ∉ (cleanup st pattern).1 → e.ttl = none) := by
  constructor
  · intro e he m hm
    exact cleanupLoop_keeps pattern _ st 0 e hwf he (by rw [hm]; exact Option.noConfusion)
  · intro e he hnot
    cases ht : e.ttl with
    | none => rfl
    | some m =>
      exact absurd (cleanupLoop_keeps pattern _ st 0 e hwf he
        (by rw [ht]; exact Option.noConfusion)) hnot

theorem cleanup_never_deletes_scheduled_witness :
    WF tempStoreMixed ∧
    ((∀ e ∈ tempStoreMixed, ∀ m : Nat, e.ttl = some m →
        e ∈ (cleanup tempStoreMixed "cache:temp:*").1) ∧
      (∀ e ∈ tempStoreMixed, e ∉ (cleanup tempStoreMixed "cache:temp:*").1 →
        e.ttl = none)) :=
  ⟨by decide, cleanup_never_deletes_scheduled tempStoreMixed "cache:temp:*" (by decide)⟩

/-- C9: the transience test of `cleanup` is on the pattern argument: a
pattern without the substring `temp` deletes nothing and returns 0, whatever
the matching keys and their TTLs are. -/
theorem cleanup_needs_temp_substring (st : Store) (pattern : String)
    (h : strIncludes pattern "temp" = false) : cleanup st pattern = (st, 0) := by
  suffices hloop : ∀ (ks : List String) (st2 : Store) (n : Nat),
      cleanupLoop pattern ks st2 n = (st2, n) by
    unfold cleanup
    rw [hloop]
  intro ks
  induction ks with
  | nil => intro st2 n; rfl
  | cons k ks ih =>
    intro st2 n
    simp only [cleanupLoop]
    rw [if_neg (by simp [h])]
    exact ih st2 n

theorem cleanup_needs_temp_substring_witness :
    strIncludes "cache:*" "temp" = false ∧
    cleanup tempStore5 "cache:*" = (tempStore5, 0) :=
  ⟨by decide, cleanup_needs_temp_substring tempStore5 "cache:*" (by decide)⟩

/-! ## Session-backfill lemmas -/

theorem backfill_keeps_ttl {e : Entry} :
    ∀ (ks : List String) (st : Store), WF st → e ∈ st → e.ttl ≠ none →
      e ∈ backfillLoop ks st := by
  intro ks
  induction ks with
  | nil => intro st _ he _; simpa [backfillLoop] using he
  | cons k ks ih =>
    intro st hwf he hm
    simp only [backfillLoop]
    by_cases hcond : storeTtl st k = -1
    · rw [if_pos hcond]
      have hke : e.key ≠ k := by
        intro hk
        obtain ⟨e0, hf0, ht0⟩ := storeTtl_neg_one hcond
        rw [← hk, storeFind_of_mem hwf he] at hf0
        obtain rfl : e0 = e := by injection hf0.symm
        exact hm ht0
      exact ih (storeExpire st k 3600) (WF_expire hwf k 3600)
        (mem_expire_other (by omega) he hke) hm
    · rw [if_neg hcond]
      exact ih st hwf he hm

theorem backfill_ttl_preserved {k : String} :
    ∀ (ks : List String) (st : Store), storeTtl st k ≠ -1 →
      storeTtl (backfillLoop ks st) k = storeTtl st k := by
  intro ks
  induction ks with
  | nil => intro st _; rfl
  | cons k2 ks ih =>
    intro st hne
    simp only [backfillLoop]
    by_cases hcond : storeTtl st k2 = -1
    · rw [if_pos hcond]
      have hk : k ≠ k2 := fun h => hne (h ▸ hcond)
      have hfind : storeFind (storeExpire st k2 3600) k = storeFind st k :=
        storeFind_expire_other hk
      have httl : storeTtl (storeExpire st k2 3600) k = storeTtl st k := by
        unfold storeTtl
        rw [hfind]
      rw [ih (storeExpire st k2 3600) (by rw [httl]; exact hne), httl]
    · rw [if_neg hcond]
      exact ih st hne

theorem backfill_sets {e : Entry} :
    ∀ (ks : List String) (st : Store), WF st → e ∈ st → e.ttl = none → e.key ∈ ks →
      storeTtl (backfillLoop ks st) e.key = 3600 := by
  intro ks
  induction ks with
  | nil => intro st _ _ _ hk; cases hk
  | cons k ks ih =>
    intro st hwf he hm hk
    simp only [backfillLoop]
    by_cases hcond : storeTtl st k = -1
    · rw [if_pos hcond]
      by_cases hke : e.key = k
      · have hf := storeFind_of_mem hwf he
        have h36 : storeTtl (storeExpire st e.key 3600) e.key = 3600 :=
          storeTtl_expire_pos hf (by omega)
        rw [← hke]
        rw [backfill_ttl_preserved ks (storeExpire st e.key 3600) (by rw [h36]; omega), h36]
      · rcases List.mem_cons.mp hk with h | h
        · exact absurd h hke
        · exact ih (storeExpire st k 3600) (WF_expire hwf k 3600)
            (mem_expire_other (by omega) he hke) hm h
    · rw [if_neg hcond]
      by_cases hke : e.key = k
      · have h2 : storeTtl st e.key = -1 := by rw [storeTtl_of_mem hwf he, hm]
        exact absurd (hke ▸ h2) hcond
      · rcases List.mem_cons.mp hk with h | h
        · exact absurd h hke
        · exact ih st hwf he hm h

theorem backfill_none_not_listed {e : Entry} :
    ∀ (ks : List String) (st : Store), WF st → e ∈ backfillLoop ks st → e.ttl = none →
      e ∈ st ∧ e.key ∉ ks := by
  intro ks
  induction ks with
  | nil => intro st _ he _; exact ⟨by simpa [backfillLoop] using he, by simp⟩
  | cons k ks ih =>
    intro st hwf he hm
    simp only [backfillLoop] at he
    by_cases hcond : storeTtl st k = -1
    · rw [if_pos hcond] at he
      obtain ⟨he2, hnot⟩ := ih (storeExpire st k 3600) (WF_expire hwf k 3600) he hm
      -- `e` sits in the expired store with no TTL, so it cannot be the
      -- entry `EXPIRE` updated; it is an unchanged entry of `st`.
      obtain ⟨e0, hf0, _⟩ := storeTtl_neg_one hcond
      unfold storeExpire at he2
      rw [hf0, if_neg (by omega)] at he2
      obtain ⟨a, ha, hae⟩ := List.mem_map.mp he2
      by_cases hak : a.key = k
      · rw [if_pos hak] at hae
        rw [← hae] at hm
        exact absurd hm (by simp)
      · rw [if_neg hak] at hae
        subst hae
        exact ⟨ha, by simp only [List.mem_cons]; rintro (h | h); exact hak h; exact hnot h⟩
    · rw [if_neg hcond] at he
      obtain ⟨he2, hnot⟩ := ih st hwf he hm
      refine ⟨he2, ?_⟩
      simp only [List.mem_cons]
      rintro (h | h)
      · have h2 : storeTtl st e.key = -1 := by rw [storeTtl_of_mem hwf he2, hm]
        exact hcond (h ▸ h2)
      · exact hnot h

/-- A store with one no-TTL session key, one session key with a TTL, and one
no-TTL temp key. -/
def sessStore : Store :=
  [⟨"cache:session:a", .str "1", none⟩, ⟨"cache:session:b", .str "2", some 10⟩,
   ⟨"cache:temp:z", .str "3", none⟩]

/-- C7: one `startAutoCleanup` tick backfills every no-TTL session key with
the default TTL of 3600 seconds, leaves session keys that already carry a
TTL unmodified, and leaves no session key without an expiry. -/
theorem tick_backfills_sessions (st : Store) (hwf : WF st) :
    (∀ e ∈ st, globMatchS "cache:session:*" e.key = true → e.ttl = none →
       storeTtl (autoCleanupTick st) e.key = 3600) ∧
    (∀ e ∈ st, globMatchS "cache:session:*" e.key = true → e.ttl ≠ none →
       e ∈ autoCleanupTick st) ∧
    (∀ e ∈ autoCleanupTick st, globMatchS "cache:session:*" e.key = true →
       e.ttl ≠ none) := by
  have hwf1 : WF (cleanup st "cache:temp:*").1 :=
    (cleanupLoop_count "cache:temp:*" (storeKeys st "cache:temp:*") st 0 hwf).2.1
  refine ⟨?_, ?_, ?_⟩
  · intro e he hsess hnone
    have hnt : globMatchS "cache:temp:*" e.key = false := session_not_temp hsess
    have he1 : e ∈ (cleanup st "cache:temp:*").1 := cleanup_keeps_unmatched he hnt
    show storeTtl (backfillLoop _ _) e.key = 3600
    apply backfill_sets _ _ hwf1 he1 hnone
    exact mem_storeKeys.mpr ⟨e, he1, rfl, hsess⟩
  · intro e he hsess hsome
    have hnt := session_not_temp hsess
    have he1 := cleanup_keeps_unmatched he hnt
    exact backfill_keeps_ttl _ _ hwf1 he1 hsome
  · intro e he hsess hnone
    have he2 : e ∈ backfillLoop
        (storeKeys (cleanup st "cache:temp:*").1 "cache:session:*")
        (cleanup st "cache:temp:*").1 := he
    obtain ⟨he1, hnot⟩ := backfill_none_not_listed _ _ hwf1 he2 hnone
    exact hnot (mem_storeKeys.mpr ⟨e, he1, rfl, hsess⟩)

theorem tick_backfills_sessions_witness :
    WF sessStore ∧
    ((∀ e ∈ sessStore, globMatchS "cache:session:*" e.key = true → e.ttl = none →
        storeTtl (autoCleanupTick sessStore) e.key = 3600) ∧
      (∀ e ∈ sessStore, globMatchS "cache:session:*" e.key = true → e.ttl ≠ none →
        e ∈ autoCleanupTick sessStore) ∧
      (∀ e ∈ autoCleanupTick sessStore, globMatchS "cache:session:*" e.key = true →
        e.ttl ≠ none)) :=
  ⟨by decide, tick_backfills_sessions sessStore (by decide)⟩

/-! ## Claims about argument handling -/

/-- C3 (counterexample): a `setWithTTL` call with `ttlSeconds = 0` and a
`createBloomCache` call with `errorRate = 2` still issue their store
commands — nothing is rejected locally before the command goes out. -/
theorem no_local_validation_cx :
    (setWithTTL [] "k" .jnull 0).2 ≠ [] ∧ (createBloomCache [] "f" 2 10 60).2 ≠ [] := by
  exact ⟨by decide, by decide⟩

/-- C3 (amended): the manager performs no local argument validation:
`setWithTTL` always issues exactly its `SETEX` command and a non-positive
TTL is rejected by the store, after the command was issued; likewise
`createBloomCache` always issues its `BF.RESERVE` command first, and an
error rate outside `(0, 1)` or a non-positive capacity is rejected by the
store. -/
theorem no_local_validation (st : Store) (k : String) (v : JValue) (t : Int)
    (name : String) (er : Rat) (cap : Int) (ts : Int) :
    (setWithTTL st k v t).2 = [.single (.setExC k t (stringify v))] ∧
    (t ≤ 0 → (setWithTTL st k v t).1 = .error .invalidExpire) ∧
    ((createBloomCache st name er cap ts).2.head? =
      some (.single (.bfReserveC name er cap))) ∧
    ((¬(0 < er ∧ er < 1) ∨ cap ≤ 0) →
      (createBloomCache st name er cap ts).1 = .error .badFilterParams) := by
  refine ⟨rfl, ?_, ?_, ?_⟩
  · intro h
    simp only [setWithTTL, storeSetEx, if_pos h]
  · unfold createBloomCache
    cases hr : storeBfReserve st name er cap <;> simp
  · intro h
    have hr : storeBfReserve st name er cap = .error .badFilterParams := by
      unfold storeBfReserve
      rw [if_pos h]
    unfold createBloomCache
    rw [hr]

theorem no_local_validation_witness :
    ((0 : Int) ≤ 0 ∧ (setWithTTL [] "k" .jnull 0).1 = .error .invalidExpire) ∧
    ((¬(0 < (2 : Rat) ∧ (2 : Rat) < 1) ∨ (10 : Int) ≤ 0) ∧
      (createBloomCache [] "f" 2 10 60).1 = .error .badFilterParams) :=
  ⟨⟨by decide, (no_local_validation [] "k" .jnull 0 "f" 2 10 60).2.1 (by decide)⟩,
   ⟨by norm_num, (no_local_validation [] "k" .jnull 0 "f" 2 10 60).2.2.2 (by norm_num)⟩⟩

/-- A store holding one string key with no TTL. -/
def c4store : Store := [⟨"k", .str "1", none⟩]

/-- C4 (counterexample): on a present key, `getWithRefresh` with refresh
argument `0` leaves the TTL untouched (the JavaScript truthiness check
`value && refreshTTL` skips the `EXPIRE`), so `TTL(k)` is `-1` afterwards,
not `0`. -/
theorem getWithRefresh_zero_refresh_cx :
    getWithRefresh c4store "k" (some 0) = .ok (some (.jnum 1), c4store) ∧
    storeTtl c4store "k" = -1 ∧ (-1 : Int) ≠ 0 :=
  ⟨rfl, by decide, by decide⟩

/-- C4 (amended): `getWithRefresh` on an absent key returns the `null`
sentinel and no error, whatever the refresh argument; on a present string
key holding parseable text, a positive refresh argument `t` re-applies the
TTL so that `TTL(k) = t` immediately afterwards (a refresh argument of `0`
is skipped by the code's truthiness test). -/
theorem getWithRefresh_spec (st : Store) (k : String) :
    (storeFind st k = none → ∀ rt, getWithRefresh st k rt = .ok (none, st)) ∧
    (∀ (e : Entry) (s : String) (j : JValue) (t : Int),
      storeFind st k = some e → e.val = .str s → parse s = some j → 0 < t →
      getWithRefresh st k (some t) = .ok (some j, storeExpire st k t) ∧
      storeTtl (storeExpire st k t) k = t) := by
  constructor
  · intro hf rt
    unfold getWithRefresh storeGet
    rw [hf]
  · intro e s j t hf hv hp ht
    have hs : s ≠ "" := by
      intro h
      have hnone : parse "" = none := rfl
      rw [h, hnone] at hp
      exact Option.noConfusion hp
    constructor
    · unfold getWithRefresh storeGet
      simp only [hf, hv]
      rw [if_neg hs, if_neg (by omega : ¬ t = 0), hp]
    · exact storeTtl_expire_pos hf ht

theorem getWithRefresh_spec_witness :
    (storeFind c4store "absent" = none ∧
      getWithRefresh c4store "absent" (some 7) = .ok (none, c4store)) ∧
    ((0 : Int) < 7 ∧
      getWithRefresh c4store "k" (some 7) = .ok (some (.jnum 1), storeExpire c4store "k" 7) ∧
      storeTtl (storeExpire c4store "k" 7) "k" = 7) :=
  ⟨⟨by decide, (getWithRefresh_spec c4store "absent").1 (by decide) (some 7)⟩,
   ⟨by decide, (getWithRefresh_spec c4store "k").2 ⟨"k", .str "1", none⟩ "1" (.jnum 1) 7
      (by decide) rfl rfl (by decide)⟩⟩

/-! ## Batch write claims -/

theorem execMulti_setEx_other :
    ∀ (es : List (String × JValue × Int)) (st : Store) (k : String),
      (∀ e2 ∈ es, e2.1 ≠ k) →
      storeFind (execMulti st (setBatchCmds es)) k = storeFind st k := by
  intro es
  induction es with
  | nil => intro st k _; rfl
  | cons e1 es ih =>
    intro st k hk
    obtain ⟨k1, v1, t1⟩ := e1
    have hk1 : k1 ≠ k := hk (k1, v1, t1) (List.mem_cons_self _ _)
    simp only [setBatchCmds, List.map_cons, execMulti, applyCmd, storeSetEx]
    by_cases ht : t1 ≤ 0
    · rw [if_pos ht]
      exact ih st k (fun e2 he2 => hk e2 (List.mem_cons_of_mem _ he2))
    · rw [if_neg ht]
      rw [show setBatchCmds es = List.map
        (fun e => Cmd.setExC e.1 e.2.2 (stringify e.2.1)) es from rfl] at *
      rw [ih _ k (fun e2 he2 => hk e2 (List.mem_cons_of_mem _ he2))]
      rw [storeFind_cons, if_neg hk1]
      exact storeFind_del_other (fun h => hk1 h.symm)

theorem execMulti_setEx_writes :
    ∀ (es : List (String × JValue × Int)) (st : Store) (k : String) (v : JValue) (t : Int),
      (k, v, t) ∈ es → 0 < t → (es.map Prod.fst).Nodup →
      storeFind (execMulti st (setBatchCmds es)) k =
        some ⟨k, .str (stringify v), some t.toNat⟩ := by
  intro es
  induction es with
  | nil => intro st k v t hm; cases hm
  | cons e1 es ih =>
    intro st k v t hm ht hnd
    obtain ⟨k1, v1, t1⟩ := e1
    have hnd2 : k1 ∉ es.map Prod.fst ∧ (es.map Prod.fst).Nodup := by
      simpa using hnd
    rcases List.mem_cons.mp hm with heq | hmem
    · injection heq with h1 h2
      injection h2 with h2 h3
      subst h1
      subst h2
      subst h3
      simp only [setBatchCmds, List.map_cons, execMulti, applyCmd, storeSetEx]
      rw [if_neg (by omega : ¬ t ≤ 0)]
      have hother : ∀ e2 ∈ es, e2.1 ≠ k := by
        intro e2 he2 hcontra
        exact hnd2.1 (hcontra ▸ List.mem_map_of_mem Prod.fst he2)
      rw [show List.map (fun e => Cmd.setExC e.1 e.2.2 (stringify e.2.1)) es =
        setBatchCmds es from rfl]
      rw [execMulti_setEx_other es _ k hother, storeFind_cons, if_pos rfl]
    · have hk1 : k1 ≠ k := by
        intro hcontra
        have : k ∈ es.map Prod.fst := by
          refine List.mem_map.mpr ⟨(k, v, t), hmem, rfl⟩
        exact hnd2.1 (hcontra ▸ this)
      simp only [setBatchCmds, List.map_cons, execMulti, applyCmd, storeSetEx]
      by_cases ht1 : t1 ≤ 0
      · rw [if_pos ht1]
        exact ih st k v t hmem ht hnd2.2
      · rw [if_neg ht1]
        exact ih _ k v t hmem ht hnd2.2

/-- C5 (counterexample): `setBatch` with one valid and one invalid entry
applies the valid one and drops the invalid one — the batch is neither
rejected as one operation nor free of partial application (Redis
transactions do not roll back). -/
theorem setBatch_partial_application_cx :
    storeFind (setBatch [] [("k1", .jnull, 10), ("k2", .jnull, 0)]).1 "k1" =
      some ⟨"k1", .str "null", some 10⟩ ∧
    storeFind (setBatch [] [("k1", .jnull, 10), ("k2", .jnull, 0)]).1 "k2" = none := by
  exact ⟨by decide, by decide⟩

/-- C5 (amended): `setBatch` always performs exactly one `MULTI`/`EXEC`
round trip, whose queued commands run back to back; when every entry has a
positive TTL and the keys are distinct, every entry is written with its
serialized value and its TTL — but a failing entry (non-positive TTL) is
skipped by the store while the rest of the batch still applies. -/
theorem setBatch_spec (st : Store) (entries : List (String × JValue × Int)) :
    (setBatch st entries).2 = [.multiExec (setBatchCmds entries)] ∧
    (setBatch st entries).2.length = 1 ∧
    (∀ (k : String) (v : JValue) (t : Int), (k, v, t) ∈ entries → 0 < t →
      (entries.map Prod.fst).Nodup →
      storeFind (setBatch st entries).1 k = some ⟨k, .str (stringify v), some t.toNat⟩) :=
  ⟨rfl, rfl, fun k v t hm ht hnd => execMulti_setEx_writes entries st k v t hm ht hnd⟩

theorem setBatch_spec_witness :
    (setBatch [] [("k1", JValue.jstr "a", (10 : Int))]).2.length = 1 ∧
    storeFind (setBatch [] [("k1", JValue.jstr "a", (10 : Int))]).1 "k1" =
      some ⟨"k1", .str (stringify (.jstr "a")), some (10 : Int).toNat⟩ :=
  ⟨(setBatch_spec [] [("k1", JValue.jstr "a", (10 : Int))]).2.1,
   (setBatch_spec [] [("k1", JValue.jstr "a", (10 : Int))]).2.2 "k1" (.jstr "a") 10
     (by decide) (by decide) (by decide)⟩

/-! ## Bloom-filter add claims -/

/-- A store holding one filter with one item and a 50-second TTL. -/
def bloomStore : Store := [⟨"f", .bloom (1 / 100) 100 ["old"], some 50⟩]

/-- C6 (counterexample): `addToBloomCache` with `ttlSeconds = 0` — an
argument that was given — issues no `EXPIRE` (JavaScript truthiness), so
the filter's TTL stays `50` instead of being refreshed to the given value. -/
theorem addToBloomCache_zero_ttl_cx :
    addToBloomCache bloomStore "f" "x" (some 0) =
      .ok (true, [⟨"f", .bloom (1 / 100) 100 ["x", "old"], some 50⟩]) ∧
    storeTtl [(⟨"f", .bloom (1 / 100) 100 ["x", "old"], some 50⟩ : Entry)] "f" = 50 ∧
    (50 : Int) ≠ 0 :=
  ⟨rfl, by decide, by decide⟩

/-- C6 (amended): on an existing filter, `addToBloomCache` returns the
store's native `BF.ADD` reply unmodified; a positive `ttlSeconds` refreshes
the filter's expiry to exactly that value as a side effect, while an absent
or zero `ttlSeconds` leaves the filter's TTL untouched. -/
theorem addToBloomCache_spec (st : Store) (name item : String) (e : Entry)
    (er : Rat) (cap : Int) (items : List String)
    (hf : storeFind st name = some e) (hv : e.val = .bloom er cap items) :
    ∃ st1, storeBfAdd st name item = .ok (!(decide (item ∈ items)), st1) ∧
      addToBloomCache st name item none = .ok (!(decide (item ∈ items)), st1) ∧
      addToBloomCache st name item (some 0) = .ok (!(decide (item ∈ items)), st1) ∧
      (∀ e1, storeFind st1 name = some e1 → e1.ttl = e.ttl) ∧
      (∀ t : Int, 0 < t →
        addToBloomCache st name item (some t) =
          .ok (!(decide (item ∈ items)), storeExpire st1 name t) ∧
        storeTtl (storeExpire st1 name t) name = t) := by
  by_cases hmem : item ∈ items
  · refine ⟨st, ?_, ?_, ?_, ?_, ?_⟩
    · unfold storeBfAdd
      simp only [hf, hv]
      rw [if_pos hmem]
      simp [hmem]
    · unfold addToBloomCache storeBfAdd
      simp only [hf, hv]
      rw [if_pos hmem]
      simp [hmem]
    · unfold addToBloomCache storeBfAdd
      simp only [hf, hv]
      rw [if_pos hmem]
      simp [hmem]
    · intro e1 hf1
      rw [hf] at hf1
      obtain rfl : e = e1 := by injection hf1
      rfl
    · intro t ht
      constructor
      · unfold addToBloomCache storeBfAdd
        simp only [hf, hv]
        rw [if_pos hmem]
        simp [hmem, if_neg (by omega : ¬ t = 0)]
      · exact storeTtl_expire_pos hf ht
  · refine ⟨st.map (fun e2 =>
      if e2.key = name then { e2 with val := .bloom er cap (item :: items) } else e2),
      ?_, ?_, ?_, ?_, ?_⟩
    · unfold storeBfAdd
      simp only [hf, hv]
      rw [if_neg hmem]
      simp [hmem]
    · unfold addToBloomCache storeBfAdd
      simp only [hf, hv]
      rw [if_neg hmem]
      simp [hmem]
    · unfold addToBloomCache storeBfAdd
      simp only [hf, hv]
      rw [if_neg hmem]
      simp [hmem]
    · intro e1 hf1
      rw [storeFind_map_if st name
        (fun e2 => { e2 with val := RVal.bloom er cap (item :: items) })
        (fun _ => rfl), hf] at hf1
      obtain rfl : { e with val := RVal.bloom er cap (item :: items) } = e1 := by
        injection hf1
      rfl
    · intro t ht
      have hf1 : storeFind (st.map (fun e2 =>
          if e2.key = name then { e2 with val := .bloom er cap (item :: items) } else e2))
          name = some { e with val := .bloom er cap (item :: items) } := by
        rw [storeFind_map_if st name
          (fun e2 => { e2 with val := RVal.bloom er cap (item :: items) })
          (fun _ => rfl), hf]
        rfl
      constructor
      · unfold addToBloomCache storeBfAdd
        simp only [hf, hv]
        rw [if_neg hmem]
        simp [hmem, if_neg (by omega : ¬ t = 0)]
      · exact storeTtl_expire_pos hf1 ht

theorem addToBloomCache_spec_witness :
    storeFind bloomStore "f" = some ⟨"f", .bloom (1 / 100) 100 ["old"], some 50⟩ ∧
    ∃ st1, storeBfAdd bloomStore "f" "x" = .ok (!(decide ("x" ∈ ["old"])), st1) ∧
      addToBloomCache bloomStore "f" "x" none = .ok (!(decide ("x" ∈ ["old"])), st1) ∧
      addToBloomCache bloomStore "f" "x" (some 0) = .ok (!(decide ("x" ∈ ["old"])), st1) ∧
      (∀ e1, storeFind st1 "f" = some e1 →
        e1.ttl = (⟨"f", .bloom (1 / 100) 100 ["old"], some 50⟩ : Entry).ttl) ∧
      (∀ t : Int, 0 < t →
        addToBloomCache bloomStore "f" "x" (some t) =
          .ok (!(decide ("x" ∈ ["old"])), storeExpire st1 "f" t) ∧
        storeTtl (storeExpire st1 "f" t) "f" = t) :=
  ⟨rfl, addToBloomCache_spec bloomStore "f" "x"
    ⟨"f", .bloom (1 / 100) 100 ["old"], some 50⟩ (1 / 100) 100 ["old"] rfl rfl⟩

/-! ## Stats reporter claims -/

/-- An `INFO` endpoint whose `stats` section is unavailable. -/
def svcStatsDown : InfoSvc := fun sect =>
  if sect = "stats" then .error (.sectionUnavailable "stats") else .ok "used_memory:1024"

/-- An `INFO` endpoint with every section available. -/
def svcAllOk : InfoSvc := fun _ => .ok "a:b"

/-- C8 (counterexample): when only the `stats` section is unavailable,
`getCacheStats` fails as a whole instead of succeeding with a per-section
error. -/
theorem getCacheStats_whole_call_fails_cx :
    (getCacheStats [] svcStatsDown).1 = .error (.sectionUnavailable "stats") := rfl

/-- C8 (amended): `getCacheStats` issues only read-only `INFO` queries and
leaves the store untouched; when every section is available it returns the
structured per-section key/value mapping; but when any section's query
fails, the whole call fails with that error — there is no per-section
degradation. -/
theorem getCacheStats_spec (st : Store) (svc : InfoSvc) :
    (getCacheStats st svc).2.1 = st ∧
    (∀ rt ∈ (getCacheStats st svc).2.2, ∃ sect, rt = .single (.infoC sect)) ∧
    (∀ m ks s2, svc "memory" = .ok m → svc "keyspace" = .ok ks → svc "stats" = .ok s2 →
      (getCacheStats st svc).1 = .ok ⟨parseInfo m, parseInfo ks, parseInfo s2⟩) ∧
    (∀ er, svc "memory" = .error er → (getCacheStats st svc).1 = .error er) ∧
    (∀ m er, svc "memory" = .ok m → svc "keyspace" = .error er →
      (getCacheStats st svc).1 = .error er) ∧
    (∀ m ks er, svc "memory" = .ok m → svc "keyspace" = .ok ks →
      svc "stats" = .error er → (getCacheStats st svc).1 = .error er) := by
  refine ⟨?_, ?_, ?_, ?_, ?_, ?_⟩
  · unfold getCacheStats
    cases hm : svc "memory" with
    | error e => rfl
    | ok m =>
      cases hk : svc "keyspace" with
      | error e => rfl
      | ok ks =>
        cases hs : svc "stats" with
        | error e => rfl
        | ok s2 => rfl
  · intro rt hrt
    unfold getCacheStats at hrt
    cases hm : svc "memory" with
    | error e =>
      rw [hm] at hrt
      simp only [List.mem_singleton] at hrt
      exact ⟨"memory", hrt⟩
    | ok m =>
      rw [hm] at hrt
      cases hk : svc "keyspace" with
      | error e =>
        rw [hk] at hrt
        rcases List.mem_cons.mp hrt with h | h
        · exact ⟨"memory", h⟩
        · simp only [List.mem_singleton] at h
          exact ⟨"keyspace", h⟩
      | ok ks =>
        rw [hk] at hrt
        cases hs : svc "stats" with
        | error e =>
          rw [hs] at hrt
          rcases List.mem_cons.mp hrt with h | h
          · exact ⟨"memory", h⟩
          rcases List.mem_cons.mp h with h2 | h2
          · exact ⟨"keyspace", h2⟩
          · simp only [List.mem_singleton] at h2
            exact ⟨"stats", h2⟩
        | ok s2 =>
          rw [hs] at hrt
          rcases List.mem_cons.mp hrt with h | h
          · exact ⟨"memory", h⟩
          rcases List.mem_cons.mp h with h2 | h2
          · exact ⟨"keyspace", h2⟩
          · simp only [List.mem_singleton] at h2
            exact ⟨"stats", h2⟩
  · intro m ks s2 hm hk hs
    unfold getCacheStats
    rw [hm, hk, hs]
  · intro er hm
    unfold getCacheStats
    rw [hm]
  · intro m er hm hk
    unfold getCacheStats
    rw [hm, hk]
  · intro m ks er hm hk hs
    unfold getCacheStats
    rw [hm, hk, hs]

theorem getCacheStats_spec_witness :
    (getCacheStats [] svcAllOk).2.1 = ([] : Store) ∧
    (getCacheStats [] svcAllOk).1 = .ok ⟨parseInfo "a:b", parseInfo "a:b", parseInfo "a:b"⟩ :=
  ⟨(getCacheStats_spec [] svcAllOk).1,
   (getCacheStats_spec [] svcAllOk).2.2.1 "a:b" "a:b" "a:b" rfl rfl rfl⟩

/-! ## Round-trip of `JSON.parse` over `JSON.stringify` -/

/-- Does the input begin with a decimal digit?  (The only boundary a greedy
number parse cares about.) -/
def digitStart : List Char → Bool
  | [] => false
  | c :: _ => c.isDigit

theorem charOfNat_toNat_lt32 {c : Char} (h : c.toNat < 32) : Char.ofNat c.toNat = c := by
  have hv : c.toNat.isValidChar := Or.inl (by omega)
  rw [Char.ofNat, dif_pos hv]
  apply Char.ext
  apply UInt32.ext
  simp [Char.ofNatAux, Char.toNat, UInt32.ofNat', UInt32.toNat, BitVec.toNat_ofNatLt]

theorem parseHexDigit_hexDigit {m : Nat} (h : m < 16) :
    parseHexDigit (hexDigit m) = some m := by
  interval_cases m <;> decide

theorem digit_low {m : Nat} (h : m < 10) :
    (Char.ofNat (48 + m)).isDigit = true ∧ (Char.ofNat (48 + m)).toNat = 48 + m := by
  interval_cases m <;> exact ⟨by decide, by decide⟩

theorem natDigits_lt10 {n : Nat} (h : n < 10) : natDigits n = [Char.ofNat (48 + n)] := by
  unfold natDigits
  rw [dif_pos h]

theorem natDigits_ge10 {n : Nat} (h : ¬ n < 10) :
    natDigits n = natDigits (n / 10) ++ [Char.ofNat (48 + n % 10)] := by
  conv_lhs => rw [natDigits]
  rw [dif_neg h]

theorem natDigits_head (n : Nat) :
    ∃ d l, natDigits n = d :: l ∧ d.isDigit = true := by
  induction n using Nat.strong_induction_on with
  | _ n ih =>
    by_cases h : n < 10
    · exact ⟨Char.ofNat (48 + n), [], natDigits_lt10 h, (digit_low h).1⟩
    · obtain ⟨d, l, hdl, hd⟩ := ih (n / 10) (Nat.div_lt_self (by omega) (by omega))
      exact ⟨d, l ++ [Char.ofNat (48 + n % 10)], by rw [natDigits_ge10 h, hdl]; rfl, hd⟩

theorem isDigit_ne {d : Char} (h : d.isDigit = true) :
    d ≠ 'n' ∧ d ≠ 't' ∧ d ≠ 'f' ∧ d ≠ '"' ∧ d ≠ '[' ∧ d ≠ '\x7b' ∧ d ≠ ']' ∧
      d ≠ '-' ∧ d ≠ '\x7d' ∧ d ≠ ',' ∧ d ≠ '\\' := by
  refine ⟨fun hc => ?_, fun hc => ?_, fun hc => ?_, fun hc => ?_, fun hc => ?_,
    fun hc => ?_, fun hc => ?_, fun hc => ?_, fun hc => ?_, fun hc => ?_, fun hc => ?_⟩ <;>
    (subst hc; exact absurd h (by decide))

theorem parseNatAux_stop {rest : List Char} (h : digitStart rest = false) (acc : Nat) :
    parseNatAux acc rest = (acc, rest) := by
  cases rest with
  | nil => rfl
  | cons c cs =>
    simp only [digitStart] at h
    simp [parseNatAux, h]

theorem parseNatAux_digits : ∀ (n acc : Nat) (rest : List Char),
    parseNatAux acc (natDigits n ++ rest) =
      parseNatAux (acc * 10 ^ (natDigits n).length + n) rest := by
  intro n
  induction n using Nat.strong_induction_on with
  | _ n ih =>
    intro acc rest
    by_cases h : n < 10
    · rw [natDigits_lt10 h]
      obtain ⟨hd, ht⟩ := digit_low h
      simp only [List.singleton_append, List.length_singleton, parseNatAux, hd, if_pos, ht,
        pow_one]
      have : 48 + n - 48 = n := by omega
      rw [this]
      rfl
    · rw [natDigits_ge10 h, List.append_assoc, List.singleton_append]
      rw [ih (n / 10) (Nat.div_lt_self (by omega) (by omega)) acc _]
      obtain ⟨hd, ht⟩ := digit_low (Nat.mod_lt n (by omega) : n % 10 < 10)
      simp only [parseNatAux, hd, if_pos, ht]
      rw [List.length_append, List.length_singleton]
      have hsub : 48 + n % 10 - 48 = n % 10 := by omega
      rw [hsub]
      congr 1
      have hpow : (10 : Nat) ^ ((natDigits (n / 10)).length + 1) =
          10 ^ (natDigits (n / 10)).length * 10 := pow_succ 10 _
      rw [hpow]
      set A := acc * 10 ^ (natDigits (n / 10)).length with hA
      rw [show acc * (10 ^ (natDigits (n / 10)).length * 10) = A * 10 from by
        rw [hA]; ring]
      omega

theorem intChars_ne_nil (n : Int) : intChars n ≠ [] := by
  unfold intChars
  by_cases hn : n < 0
  · rw [if_pos hn]; exact List.cons_ne_nil _ _
  · rw [if_neg hn]
    obtain ⟨d, l, hdl, _⟩ := natDigits_head n.toNat
    rw [hdl]
    exact List.cons_ne_nil _ _

theorem parseNum_intChars (n : Int) (rest : List Char) (h : digitStart rest = false) :
    parseNum (intChars n ++ rest) = some (n, rest) := by
  by_cases hn : n < 0
  · rw [show intChars n = '-' :: natDigits n.natAbs from by unfold intChars; rw [if_pos hn]]
    obtain ⟨d, l, hdl, hd⟩ := natDigits_head n.natAbs
    rw [List.cons_append, hdl, List.cons_append]
    simp only [parseNum, if_pos, hd]
    rw [show (d :: (l ++ rest)) = natDigits n.natAbs ++ rest from by rw [hdl]; rfl]
    rw [parseNatAux_digits, zero_mul, zero_add, parseNatAux_stop h]
    have : -((n.natAbs : Nat) : Int) = n := by omega
    rw [this]
  · rw [show intChars n = natDigits n.toNat from by unfold intChars; rw [if_neg hn]]
    obtain ⟨d, l, hdl, hd⟩ := natDigits_head n.toNat
    rw [hdl, List.cons_append]
    have hneq := isDigit_ne hd
    simp only [parseNum, if_neg hneq.2.2.2.2.2.2.2.1, hd, if_pos]
    rw [show (d :: (l ++ rest)) = natDigits n.toNat ++ rest from by rw [hdl]; rfl]
    rw [parseNatAux_digits, zero_mul, zero_add, parseNatAux_stop h]
    have : ((n.toNat : Nat) : Int) = n := by omega
    rw [this]

theorem psb_cons_char (c : Char) (cs l2 r2 : List Char)
    (h : parseStringBody cs = some (l2, r2)) :
    parseStringBody (escapeChar c ++ cs) = some (c :: l2, r2) := by
  unfold escapeChar
  by_cases h1 : c = '"'
  · rw [if_pos h1]
    subst h1
    rw [parseStringBody.eq_def]
    simp [h]
  · rw [if_neg h1]
    by_cases h2 : c = '\\'
    · rw [if_pos h2]
      subst h2
      rw [parseStringBody.eq_def]
      simp [h]
    · rw [if_neg h2]
      by_cases h3 : c = '\x08'
      · rw [if_pos h3]
        subst h3
        rw [parseStringBody.eq_def]
        simp [h]
      · rw [if_neg h3]
        by_cases h4 : c = '\x09'
        · rw [if_pos h4]
          subst h4
          rw [parseStringBody.eq_def]
          simp [h]
        · rw [if_neg h4]
          by_cases h5 : c = '\x0a'
          · rw [if_pos h5]
            subst h5
            rw [parseStringBody.eq_def]
            simp [h]
          · rw [if_neg h5]
            by_cases h6 : c = '\x0c'
            · rw [if_pos h6]
              subst h6
              rw [parseStringBody.eq_def]
              simp [h]
            · rw [if_neg h6]
              by_cases h7 : c = '\x0d'
              · rw [if_pos h7]
                subst h7
                rw [parseStringBody.eq_def]
                simp [h]
              · rw [if_neg h7]
                by_cases h8 : c.toNat < 32
                · rw [if_pos h8]
                  have ha : parseHexDigit (hexDigit (c.toNat / 16)) = some (c.toNat / 16) :=
                    parseHexDigit_hexDigit (by omega)
                  have hb : parseHexDigit (hexDigit (c.toNat % 16)) = some (c.toNat % 16) :=
                    parseHexDigit_hexDigit (Nat.mod_lt _ (by omega))
                  have h0 : parseHexDigit '0' = some 0 := by decide
                  rw [parseStringBody.eq_def]
                  simp [ha, hb, h0, h]
                  have hsum : c.toNat / 16 * 16 + c.toNat % 16 = c.toNat := by omega
                  rw [hsum, charOfNat_toNat_lt32 h8]
                · rw [if_neg h8]
                  rw [parseStringBody.eq_def]
                  simp [h1, h2, h]

theorem psb_escape : ∀ (l rest : List Char),
    parseStringBody (escChars l ++ '"' :: rest) = some (l, rest) := by
  intro l
  induction l with
  | nil =>
    intro rest
    rw [show escChars [] ++ ('"' :: rest) = '"' :: rest from rfl, parseStringBody.eq_def]
    simp
  | cons c l ih =>
    intro rest
    rw [show escChars (c :: l) = escapeChar c ++ escChars l from by simp [escChars]]
    rw [List.append_assoc]
    exact psb_cons_char c _ l rest (ih rest)

theorem stringifyChars_head (v : JValue) :
    ∃ c cs, stringifyChars v = c :: cs ∧ c ≠ ']' := by
  cases v with
  | jnull => exact ⟨'n', _, rfl, by decide⟩
  | jbool b =>
    cases b
    · exact ⟨'f', _, rfl, by decide⟩
    · exact ⟨'t', _, rfl, by decide⟩
  | jnum n =>
    by_cases hn : n < 0
    · refine ⟨'-', natDigits n.natAbs, ?_, by decide⟩
      show intChars n = _
      unfold intChars
      rw [if_pos hn]
    · obtain ⟨d, l, hdl, hd⟩ := natDigits_head n.toNat
      refine ⟨d, l, ?_, (isDigit_ne hd).2.2.2.2.2.2.1⟩
      show intChars n = _
      unfold intChars
      rw [if_neg hn, hdl]
  | jstr s => exact ⟨'"', _, rfl, by decide⟩
  | jarr xs =>
    cases xs
    · exact ⟨'[', _, rfl, by decide⟩
    · exact ⟨'[', _, rfl, by decide⟩
  | jobj fs =>
    cases fs
    · exact ⟨'\x7b', _, rfl, by decide⟩
    · exact ⟨'\x7b', _, rfl, by decide⟩

theorem stringify_ne_empty (v : JValue) : stringify v ≠ "" := by
  obtain ⟨c, cs, hd, _⟩ := stringifyChars_head v
  intro h
  have h2 : stringifyChars v = [] := congrArg String.data h
  rw [hd] at h2
  exact List.noConfusion h2

theorem digitStart_arrTail (r : JArr) (rest : List Char) :
    digitStart (stringifyArrTail r ++ ']' :: rest) = false := by
  cases r <;> simp [stringifyArrTail, digitStart]

theorem digitStart_objTail (o : JObj) (rest : List Char) :
    digitStart (stringifyObjTail o ++ '\x7d' :: rest) = false := by
  cases o <;> simp [stringifyObjTail, digitStart]

mutual
/-- Fuel needed by `parseVal` on the canonical serialization of a value. -/
def jsize : JValue → Nat
  | .jnull => 1
  | .jbool _ => 1
  | .jnum _ => 1
  | .jstr _ => 1
  | .jarr .anil => 1
  | .jarr (.acons v r) => 1 + max (jsize v) (asize r)
  | .jobj .onil => 1
  | .jobj (.ocons _ v r) => 1 + max (1 + jsize v) (osize r)
/-- Fuel needed by `parseArrTail` on a serialized array tail. -/
def asize : JArr → Nat
  | .anil => 1
  | .acons v r => 1 + max (jsize v) (asize r)
/-- Fuel needed by `parseObjTail` on a serialized object tail. -/
def osize : JObj → Nat
  | .onil => 1
  | .ocons _ v r => 1 + max (1 + jsize v) (osize r)
end

mutual
theorem parseVal_stringify : ∀ (v : JValue) (fuel : Nat) (rest : List Char),
    jsize v ≤ fuel → digitStart rest = false →
    parseVal fuel (stringifyChars v ++ rest) = some (v, rest)
  | .jnull, fuel, rest, hfuel, _ => by
    obtain ⟨f, rfl⟩ : ∃ f, fuel = f + 1 := ⟨fuel - 1, by simp [jsize] at hfuel; omega⟩
    simp only [stringifyChars, List.cons_append, List.nil_append]
    simp only [parseVal]
    simp
  | .jbool true, fuel, rest, hfuel, _ => by
    obtain ⟨f, rfl⟩ : ∃ f, fuel = f + 1 := ⟨fuel - 1, by simp [jsize] at hfuel; omega⟩
    simp only [stringifyChars, List.cons_append, List.nil_append]
    simp only [parseVal]
    simp
  | .jbool false, fuel, rest, hfuel, _ => by
    obtain ⟨f, rfl⟩ : ∃ f, fuel = f + 1 := ⟨fuel - 1, by simp [jsize] at hfuel; omega⟩
    simp only [stringifyChars, List.cons_append, List.nil_append]
    simp only [parseVal]
    simp
  | .jnum n, fuel, rest, hfuel, hrest => by
    obtain ⟨f, rfl⟩ : ∃ f, fuel = f + 1 := ⟨fuel - 1, by simp [jsize] at hfuel; omega⟩
    have hnum := parseNum_intChars n rest hrest
    show parseVal (f + 1) (intChars n ++ rest) = some (.jnum n, rest)
    by_cases hn : n < 0
    · rw [show intChars n = '-' :: natDigits n.natAbs from by unfold intChars; rw [if_pos hn]]
      rw [show intChars n = '-' :: natDigits n.natAbs from by
        unfold intChars; rw [if_pos hn]] at hnum
      simp only [List.cons_append] at hnum ⊢
      simp only [parseVal]
      simp [hnum]
    · obtain ⟨d, l, hdl, hd⟩ := natDigits_head n.toNat
      have hic : intChars n = d :: l := by unfold intChars; rw [if_neg hn, hdl]
      rw [hic]
      rw [hic] at hnum
      have hne := isDigit_ne hd
      simp only [List.cons_append] at hnum ⊢
      simp only [parseVal]
      simp [hne.1, hne.2.1, hne.2.2.1, hne.2.2.2.1, hne.2.2.2.2.1, hne.2.2.2.2.2.1,
        hd, hnum]
  | .jstr s, fuel, rest, hfuel, _ => by
    obtain ⟨f, rfl⟩ : ∃ f, fuel = f + 1 := ⟨fuel - 1, by simp [jsize] at hfuel; omega⟩
    show parseVal (f + 1) (('"' :: (escChars s.data ++ ['"'])) ++ rest) =
      some (.jstr s, rest)
    have hesc : (('"' :: (escChars s.data ++ ['"'])) ++ rest) =
        '"' :: (escChars s.data ++ ('"' :: rest)) := by simp
    rw [hesc]
    simp only [parseVal]
    simp [psb_escape s.data rest]
  | .jarr .anil, fuel, rest, hfuel, _ => by
    obtain ⟨f, rfl⟩ : ∃ f, fuel = f + 1 := ⟨fuel - 1, by simp [jsize] at hfuel; omega⟩
    simp only [stringifyChars, List.cons_append, List.nil_append]
    simp only [parseVal]
    simp
  | .jarr (.acons v r), fuel, rest, hfuel, hrest => by
    obtain ⟨f, rfl⟩ : ∃ f, fuel = f + 1 :=
      ⟨fuel - 1, by simp [jsize] at hfuel; omega⟩
    have hmax : max (jsize v) (asize r) ≤ f := by
      simp only [jsize] at hfuel
      omega
    have hv : jsize v ≤ f := le_trans (Nat.le_max_left _ _) hmax
    have hr : asize r ≤ f := le_trans (Nat.le_max_right _ _) hmax
    obtain ⟨c0, cs0, hsv, hc0⟩ := stringifyChars_head v
    have hIH1 : parseVal f (stringifyChars v ++ (stringifyArrTail r ++ ']' :: rest)) =
        some (v, stringifyArrTail r ++ ']' :: rest) :=
      parseVal_stringify v f _ hv (digitStart_arrTail r rest)
    have hIH2 : parseArrTail f (stringifyArrTail r ++ ']' :: rest) = some (r, rest) :=
      parseArrTail_stringify r f rest hr hrest
    show parseVal (f + 1)
      (('[' :: (stringifyChars v ++ stringifyArrTail r ++ [']'])) ++ rest) = _
    have hshape : ('[' :: (stringifyChars v ++ stringifyArrTail r ++ [']'])) ++ rest =
        '[' :: (stringifyChars v ++ (stringifyArrTail r ++ ']' :: rest)) := by simp
    rw [hshape]
    simp only [parseVal]
    have hhead : (stringifyChars v ++ (stringifyArrTail r ++ ']' :: rest)).head? =
        some c0 := by rw [hsv]; rfl
    simp [hhead, hc0, hIH1, hIH2]
  | .jobj .onil, fuel, rest, hfuel, _ => by
    obtain ⟨f, rfl⟩ : ∃ f, fuel = f + 1 := ⟨fuel - 1, by simp [jsize] at hfuel; omega⟩
    simp only [stringifyChars, List.cons_append, List.nil_append]
    simp only [parseVal]
    simp
  | .jobj (.ocons k v r), fuel, rest, hfuel, hrest => by
    obtain ⟨f, rfl⟩ : ∃ f, fuel = f + 1 :=
      ⟨fuel - 1, by simp [jsize] at hfuel; omega⟩
    have hmax : max (1 + jsize v) (osize r) ≤ f := by
      simp only [jsize] at hfuel
      omega
    have hv1 : 1 + jsize v ≤ f := le_trans (Nat.le_max_left _ _) hmax
    have hr : osize r ≤ f := le_trans (Nat.le_max_right _ _) hmax
    obtain ⟨f2, rfl⟩ : ∃ f2, f = f2 + 1 := ⟨f - 1, by omega⟩
    have hIH1 : parseVal f2 (stringifyChars v ++ (stringifyObjTail r ++ '\x7d' :: rest)) =
        some (v, stringifyObjTail r ++ '\x7d' :: rest) :=
      parseVal_stringify v f2 _ (by omega) (digitStart_objTail r rest)
    have hIH2 : parseObjTail (f2 + 1) (stringifyObjTail r ++ '\x7d' :: rest) =
        some (r, rest) :=
      parseObjTail_stringify r (f2 + 1) rest hr hrest
    show parseVal (f2 + 1 + 1)
      (('\x7b' :: ('"' :: (escChars k.data ++ ['"', ':'] ++ stringifyChars v
        ++ stringifyObjTail r ++ ['\x7d']))) ++ rest) = _
    have hshape : ('\x7b' :: ('"' :: (escChars k.data ++ ['"', ':'] ++ stringifyChars v
        ++ stringifyObjTail r ++ ['\x7d']))) ++ rest =
        '\x7b' :: ('"' :: (escChars k.data ++
          ('"' :: ':' :: (stringifyChars v ++ (stringifyObjTail r ++ '\x7d' :: rest))))) := by
      simp
    rw [hshape]
    simp only [parseVal]
    have hpsb : parseStringBody (escChars k.data ++
        ('"' :: (':' :: (stringifyChars v ++ (stringifyObjTail r ++ '\x7d' :: rest))))) =
        some (k.data, ':' :: (stringifyChars v ++ (stringifyObjTail r ++ '\x7d' :: rest))) :=
      psb_escape k.data _
    have hmem : parseMember (f2 + 1)
        ('"' :: (escChars k.data ++
          ('"' :: ':' :: (stringifyChars v ++ (stringifyObjTail r ++ '\x7d' :: rest))))) =
        some (k, v, stringifyObjTail r ++ '\x7d' :: rest) := by
      simp only [parseMember]
      simp [hpsb, hIH1]
    simp [hmem, hIH2]
theorem parseArrTail_stringify : ∀ (r : JArr) (fuel : Nat) (rest : List Char),
    asize r ≤ fuel → digitStart rest = false →
    parseArrTail fuel (stringifyArrTail r ++ ']' :: rest) = some (r, rest)
  | .anil, fuel, rest, hfuel, _ => by
    obtain ⟨f, rfl⟩ : ∃ f, fuel = f + 1 := ⟨fuel - 1, by simp [asize] at hfuel; omega⟩
    simp only [stringifyArrTail, List.nil_append]
    simp only [parseArrTail]
    simp
  | .acons v r, fuel, rest, hfuel, hrest => by
    obtain ⟨f, rfl⟩ : ∃ f, fuel = f + 1 :=
      ⟨fuel - 1, by simp [asize] at hfuel; omega⟩
    have hmax : max (jsize v) (asize r) ≤ f := by
      simp only [asize] at hfuel
      omega
    have hIH1 : parseVal f (stringifyChars v ++ (stringifyArrTail r ++ ']' :: rest)) =
        some (v, stringifyArrTail r ++ ']' :: rest) :=
      parseVal_stringify v f _ (le_trans (Nat.le_max_left _ _) hmax)
        (digitStart_arrTail r rest)
    have hIH2 : parseArrTail f (stringifyArrTail r ++ ']' :: rest) = some (r, rest) :=
      parseArrTail_stringify r f rest (le_trans (Nat.le_max_right _ _) hmax) hrest
    show parseArrTail (f + 1)
      ((',' :: (stringifyChars v ++ stringifyArrTail r)) ++ ']' :: rest) = _
    have hshape : ((',' :: (stringifyChars v ++ stringifyArrTail r)) ++ ']' :: rest) =
        ',' :: (stringifyChars v ++ (stringifyArrTail r ++ ']' :: rest)) := by simp
    rw [hshape]
    simp only [parseArrTail]
    simp [hIH1, hIH2]
theorem parseObjTail_stringify : ∀ (o : JObj) (fuel : Nat) (rest : List Char),
    osize o ≤ fuel → digitStart rest = false →
    parseObjTail fuel (stringifyObjTail o ++ '\x7d' :: rest) = some (o, rest)
  | .onil, fuel, rest, hfuel, _ => by
    obtain ⟨f, rfl⟩ : ∃ f, fuel = f + 1 := ⟨fuel - 1, by simp [osize] at hfuel; omega⟩
    simp only [stringifyObjTail, List.nil_append]
    simp only [parseObjTail]
    simp
  | .ocons k v r, fuel, rest, hfuel, hrest => by
    obtain ⟨f, rfl⟩ : ∃ f, fuel = f + 1 :=
      ⟨fuel - 1, by simp [osize] at hfuel; omega⟩
    have hmax : max (1 + jsize v) (osize r) ≤ f := by
      simp only [osize] at hfuel
      omega
    have hv1 : 1 + jsize v ≤ f := le_trans (Nat.le_max_left _ _) hmax
    have hr : osize r ≤ f := le_trans (Nat.le_max_right _ _) hmax
    obtain ⟨f2, rfl⟩ : ∃ f2, f = f2 + 1 := ⟨f - 1, by omega⟩
    have hIH1 : parseVal f2 (stringifyChars v ++ (stringifyObjTail r ++ '\x7d' :: rest)) =
        some (v, stringifyObjTail r ++ '\x7d' :: rest) :=
      parseVal_stringify v f2 _ (by omega) (digitStart_objTail r rest)
    have hIH2 : parseObjTail (f2 + 1) (stringifyObjTail r ++ '\x7d' :: rest) =
        some (r, rest) :=
      parseObjTail_stringify r (f2 + 1) rest hr hrest
    show parseObjTail (f2 + 1 + 1)
      ((',' :: ('"' :: (escChars k.data ++ ['"', ':'] ++ stringifyChars v
        ++ stringifyObjTail r))) ++ '\x7d' :: rest) = _
    have hshape : ((',' :: ('"' :: (escChars k.data ++ ['"', ':'] ++ stringifyChars v
        ++ stringifyObjTail r))) ++ '\x7d' :: rest) =
        ',' :: ('"' :: (escChars k.data ++
          ('"' :: ':' :: (stringifyChars v ++ (stringifyObjTail r ++ '\x7d' :: rest))))) := by
      simp
    rw [hshape]
    simp only [parseObjTail]
    have hpsb : parseStringBody (escChars k.data ++
        ('"' :: (':' :: (stringifyChars v ++ (stringifyObjTail r ++ '\x7d' :: rest))))) =
        some (k.data, ':' :: (stringifyChars v ++ (stringifyObjTail r ++ '\x7d' :: rest))) :=
      psb_escape k.data _
    have hmem : parseMember (f2 + 1)
        ('"' :: (escChars k.data ++
          ('"' :: ':' :: (stringifyChars v ++ (stringifyObjTail r ++ '\x7d' :: rest))))) =
        some (k, v, stringifyObjTail r ++ '\x7d' :: rest) := by
      simp only [parseMember]
      simp [hpsb, hIH1]
    simp [hmem, hIH2]
end

mutual
theorem jsize_le : ∀ v : JValue, jsize v ≤ (stringifyChars v).length
  | .jnull => by simp [jsize, stringifyChars]
  | .jbool b => by cases b <;> simp [jsize, stringifyChars]
  | .jnum n => by
    simp only [jsize, stringifyChars]
    cases h : intChars n with
    | nil => exact absurd h (intChars_ne_nil n)
    | cons c l => simp
  | .jstr s => by simp [jsize, stringifyChars]
  | .jarr .anil => by simp [jsize, stringifyChars]
  | .jarr (.acons v r) => by
    have h1 := jsize_le v
    have h2 := asize_le r
    simp only [jsize, stringifyChars, List.length_cons, List.length_append,
      List.length_singleton]
    have h3 : max (jsize v) (asize r) ≤
        (stringifyChars v).length + ((stringifyArrTail r).length + 1) :=
      Nat.max_le.mpr ⟨by omega, by omega⟩
    omega
  | .jobj .onil => by simp [jsize, stringifyChars]
  | .jobj (.ocons k v r) => by
    have h1 := jsize_le v
    have h2 := osize_le r
    simp only [jsize, stringifyChars, List.length_cons, List.length_append,
      List.length_singleton]
    have h3 : max (1 + jsize v) (osize r) ≤
        1 + (stringifyChars v).length + ((stringifyObjTail r).length + 1) :=
      Nat.max_le.mpr ⟨by omega, by omega⟩
    omega
theorem asize_le : ∀ r : JArr, asize r ≤ (stringifyArrTail r).length + 1
  | .anil => by simp [asize, stringifyArrTail]
  | .acons v r => by
    have h1 := jsize_le v
    have h2 := asize_le r
    simp only [asize, stringifyArrTail, List.length_cons, List.length_append]
    have h3 : max (jsize v) (asize r) ≤
        (stringifyChars v).length + ((stringifyArrTail r).length + 1) :=
      Nat.max_le.mpr ⟨by omega, by omega⟩
    omega
theorem osize_le : ∀ o : JObj, osize o ≤ (stringifyObjTail o).length + 1
  | .onil => by simp [osize, stringifyObjTail]
  | .ocons k v r => by
    have h1 := jsize_le v
    have h2 := osize_le r
    simp only [osize, stringifyObjTail, List.length_cons, List.length_append,
      List.length_singleton]
    have h3 : max (1 + jsize v) (osize r) ≤
        1 + (stringifyChars v).length + ((stringifyObjTail r).length + 1) :=
      Nat.max_le.mpr ⟨by omega, by omega⟩
    omega
end

/-- `JSON.parse` recovers every value `JSON.stringify` produced. -/
theorem parse_stringify (v : JValue) : parse (stringify v) = some v := by
  have h1 : parseVal ((stringifyChars v).length + 1) (stringifyChars v ++ []) =
      some (v, []) :=
    parseVal_stringify v _ [] (le_trans (jsize_le v) (by omega)) rfl
  rw [List.append_nil] at h1
  show (match parseVal ((stringifyChars v).length + 1) (stringifyChars v) with
    | some (w, []) => some w
    | _ => none) = some v
  rw [h1]

/-- C10: writes and reads round-trip through serialization — reading a key
immediately after `setWithTTL` wrote it (TTL still positive, key present)
returns a value structurally equal to the one written, because the value
stored via `JSON.stringify` is recovered via `JSON.parse`. -/
theorem setWithTTL_getWithRefresh_roundtrip (st : Store) (k : String) (v : JValue)
    (t : Int) (st1 : Store) (ht : 0 < t) (hset : (setWithTTL st k v t).1 = .ok st1) :
    getWithRefresh st1 k none = .ok (some v, st1) := by
  have hst1 : st1 = ⟨k, .str (stringify v), some t.toNat⟩ :: storeDel st k := by
    unfold setWithTTL storeSetEx at hset
    rw [if_neg (by omega : ¬ t ≤ 0)] at hset
    simp only [Except.ok.injEq] at hset
    exact hset.symm
  subst hst1
  unfold getWithRefresh storeGet
  rw [storeFind_cons, if_pos rfl]
  simp [stringify_ne_empty v, parse_stringify v]

/-- The value written in the round-trip witness. -/
def v0c10 : JValue := .jobj (.ocons "name" (.jstr "John") .onil)

/-- The store produced by `setWithTTL` in the round-trip witness. -/
def st0c10 : Store := [⟨"k", .str (stringify v0c10), some 5⟩]

theorem setWithTTL_getWithRefresh_roundtrip_witness :
    (0 : Int) < 5 ∧ (setWithTTL [] "k" v0c10 5).1 = .ok st0c10 ∧
    getWithRefresh st0c10 "k" none = .ok (some v0c10, st0c10) :=
  ⟨by decide, rfl,
   setWithTTL_getWithRefresh_roundtrip [] "k" v0c10 5 st0c10 (by decide) rfl⟩
